import Mathlib

/-!
Eight queens by simulated annealing: a verification development.

Shallow embedding of `8_queens_simulated_annealing.cpp`.

* `std::vector<int>` is a `List Int`; an access outside the vector (undefined
  behaviour in C++) is the fault `Fault.outOfBounds`.
* `rand()` reads the next element of an explicit list of draws; a call that
  finds the list empty is the fault `Fault.starved` (the finite prefix of the
  random sequence was too short for the program to return).
* A `float` is the rational number it holds. `T *= deltaT` rounds the product to the
  nearest binary32 value, ties to even (`roundF32`, with the subnormal range). A product
  beyond the largest binary32 value, which needs `|deltaT| > 1`, is kept as a rational of
  that size where the source goes on with an infinity of the same sign; the guard `T > 2`
  reads both alike.
* The C library's `exp` is not part of the source: the composite `(int) exp(c / T)` is
  the parameter `expInt` of `SA`, a function of the exact quotient, and `LibmExp` states
  what is assumed of it; the constant `RAND_MAX` is a parameter too.
* The loop of `SA` runs on fuel; running out of fuel is `none`, kept apart from
  the faults.
* `int` values are unbounded integers: every count in the program is bounded by
  the number of queens, which is 8 in every state the program builds.
-/

namespace EightQueens

/-- Ways in which a run of the model can fail to return a value. -/
inductive Fault where
  | outOfBounds
  | starved
deriving DecidableEq, Repr

/-- A coordinate `pair<int,int>`: `(row, column)`. -/
abbrev Square := Int × Int

/-- The class `State`: the occupancy grid and the list of queen coordinates. -/
structure State where
  board : List (List Int)
  queenLocations : List Square
deriving DecidableEq, Repr

/-- The increment `v[i]++` on a `vector<int>`. -/
def incrAt (v : List Int) (i : Int) : Except Fault (List Int) :=
  if 0 ≤ i ∧ i < v.length then
    .ok (v.set i.toNat (v.getD i.toNat 0 + 1))
  else
    .error .outOfBounds

/-- The assignment `board[i][j] = x` on a `vector< vector<int> >`. -/
def setCell (board : List (List Int)) (i j x : Int) : Except Fault (List (List Int)) :=
  if 0 ≤ i ∧ i < board.length then
    if 0 ≤ j ∧ j < (board.getD i.toNat []).length then
      .ok (board.set i.toNat ((board.getD i.toNat []).set j.toNat x))
    else
      .error .outOfBounds
  else
    .error .outOfBounds

/-- The read `board[i][j]`. -/
def getCell (board : List (List Int)) (i j : Int) : Except Fault Int :=
  if 0 ≤ i ∧ i < board.length then
    if 0 ≤ j ∧ j < (board.getD i.toNat []).length then
      .ok ((board.getD i.toNat []).getD j.toNat 0)
    else
      .error .outOfBounds
  else
    .error .outOfBounds

/-- The first loop of `State::cost`: for every queen `p`,
`rowCount[p.first]++; columnCount[p.second]++`. -/
def countRowsColumns :
    List Square → List Int → List Int → Except Fault (List Int × List Int)
  | [], rowCount, columnCount => .ok (rowCount, columnCount)
  | p :: ps, rowCount, columnCount =>
    match incrAt rowCount p.1 with
    | .error e => .error e
    | .ok rowCount1 =>
      match incrAt columnCount p.2 with
      | .error e => .error e
      | .ok columnCount1 => countRowsColumns ps rowCount1 columnCount1

/-- The second loop over the queens in `State::cost`: for every queen `p`,
`negDiag[(p.first - p.second) + 8]++; posDiag[(p.second - p.first) + 8]++`. -/
def countDiagonals :
    List Square → List Int → List Int → Except Fault (List Int × List Int)
  | [], negDiag, posDiag => .ok (negDiag, posDiag)
  | p :: ps, negDiag, posDiag =>
    match incrAt negDiag ((p.1 - p.2) + 8) with
    | .error e => .error e
    | .ok negDiag1 =>
      match incrAt posDiag ((p.2 - p.1) + 8) with
      | .error e => .error e
      | .ok posDiag1 => countDiagonals ps negDiag1 posDiag1

/-- The loops `for(int x : v) { if(x > 1) { cost += x; } }`. -/
def addCrowded (cost : Int) : List Int → Int
  | [] => cost
  | x :: xs => addCrowded (if x > 1 then cost + x else cost) xs

/-- The function `State::cost`. -/
def cost (s : State) : Except Fault Int :=
  match countRowsColumns s.queenLocations (List.replicate 8 0) (List.replicate 8 0) with
  | .error e => .error e
  | .ok (rowCount, columnCount) =>
    match countDiagonals s.queenLocations (List.replicate 16 0) (List.replicate 16 0) with
    | .error e => .error e
    | .ok (negDiag, posDiag) =>
      .ok (addCrowded (addCrowded (addCrowded (addCrowded 0 rowCount) columnCount)
        negDiag) posDiag)

/-- One call of `rand()`: the next draw, a value in `[0, RAND_MAX]`. -/
def rand : List Nat → Except Fault (Int × List Nat)
  | [] => .error .starved
  | r :: rest => .ok ((r : Int), rest)

/-- The rejection loop shared by `generateRandom` and `makeRandomMove`:
`while(count(used.begin(), used.end(), make_pair(i, j))) { i = rand() % 8; j = rand() % 8; }`.
Each pass reads two draws. -/
def whileUsed (used : List Square) : Int → Int → List Nat → Except Fault (Square × List Nat)
  | i, j, draws =>
    if used.count (i, j) ≠ 0 then
      match draws with
      | a :: b :: rest => whileUsed used ((a : Int) % 8) ((b : Int) % 8) rest
      | _ => .error .starved
    else
      .ok ((i, j), draws)

/-- The grid literal of `generateRandom`: eight rows of eight zeros. -/
def emptyBoard : List (List Int) :=
  [[0, 0, 0, 0, 0, 0, 0, 0],
   [0, 0, 0, 0, 0, 0, 0, 0],
   [0, 0, 0, 0, 0, 0, 0, 0],
   [0, 0, 0, 0, 0, 0, 0, 0],
   [0, 0, 0, 0, 0, 0, 0, 0],
   [0, 0, 0, 0, 0, 0, 0, 0],
   [0, 0, 0, 0, 0, 0, 0, 0],
   [0, 0, 0, 0, 0, 0, 0, 0]]

/-- The loop `for(int k=0; k<8; ++k)` of `generateRandom`; the first argument is the
number of passes still to run. -/
def placeLoop : Nat → List (List Int) → Int → Int → List Square → List Nat →
    Except Fault (State × List Nat)
  | 0, board, _, _, usedSquares, draws => .ok (⟨board, usedSquares⟩, draws)
  | k + 1, board, i, j, usedSquares, draws =>
    match whileUsed usedSquares i j draws with
    | .error e => .error e
    | .ok ((i1, j1), draws1) =>
      match setCell board i1 j1 1 with
      | .error e => .error e
      | .ok board1 => placeLoop k board1 i1 j1 (usedSquares ++ [(i1, j1)]) draws1

/-- The function `State::generateRandom`; the draws are those that follow `srand`. -/
def generateRandom (draws : List Nat) : Except Fault (State × List Nat) :=
  match rand draws with
  | .error e => .error e
  | .ok (a, draws1) =>
    match rand draws1 with
    | .error e => .error e
    | .ok (b, draws2) => placeLoop 8 emptyBoard (a % 8) (b % 8) [] draws2

/-- The read `queenLocations[r]`. -/
def queenAt (queenLocations : List Square) (r : Int) : Except Fault Square :=
  if 0 ≤ r ∧ r < queenLocations.length then
    .ok (queenLocations.getD r.toNat (0, 0))
  else
    .error .outOfBounds

/-- The method `State::makeRandomMove`. -/
def State.makeRandomMove (this : State) (draws : List Nat) : Except Fault (State × List Nat) :=
  match rand draws with
  | .error e => .error e
  | .ok (a, draws1) =>
    match rand draws1 with
    | .error e => .error e
    | .ok (b, draws2) =>
      match whileUsed this.queenLocations (a % 8) (b % 8) draws2 with
      | .error e => .error e
      | .ok ((i, j), draws3) =>
        match rand draws3 with
        | .error e => .error e
        | .ok (c, draws4) =>
          let r := c % 8
          match queenAt this.queenLocations r with
          | .error e => .error e
          | .ok old =>
            match setCell this.board old.1 old.2 0 with
            | .error e => .error e
            | .ok board1 =>
              match setCell board1 i j 1 with
              | .error e => .error e
              | .ok board2 =>
                .ok (⟨board2, this.queenLocations.set r.toNat (i, j)⟩, draws4)

/-- Helper of `ilog2`: at most `fuel` halvings. -/
def log2Fuel : Nat → Nat → Nat
  | 0, _ => 0
  | fuel + 1, n => if 2 ≤ n then log2Fuel fuel (n / 2) + 1 else 0

/-- The position of the leading bit of `n`: `2 ^ ilog2 n ≤ n < 2 ^ (ilog2 n + 1)` for
`n ≥ 1`. -/
def ilog2 (n : Nat) : Nat := log2Fuel n n

/-- The binary exponent of a positive rational `a`: the `e` with `2 ^ e ≤ a < 2 ^ (e + 1)`. -/
def binExp (a : ℚ) : ℤ :=
  if a < (2 : ℚ) ^ ((ilog2 a.num.toNat : ℤ) - (ilog2 a.den : ℤ)) then
    (ilog2 a.num.toNat : ℤ) - (ilog2 a.den : ℤ) - 1
  else
    (ilog2 a.num.toNat : ℤ) - (ilog2 a.den : ℤ)

/-- Rounding of a non-negative rational to the nearest integer, ties to the even one. -/
def roundHalfEven (m : ℚ) : ℤ :=
  if m - ⌊m⌋ < 1 / 2 then ⌊m⌋
  else if 1 / 2 < m - ⌊m⌋ then ⌊m⌋ + 1
  else if ⌊m⌋ % 2 = 0 then ⌊m⌋ else ⌊m⌋ + 1

/-- The unit in the last place of binary32 at `q`: 24 significant bits, and the fixed
spacing `2⁻¹⁴⁹` below `2⁻¹²⁶`. -/
def ulpF32 (q : ℚ) : ℚ := (2 : ℚ) ^ (max (binExp |q|) (-126) - 23)

/-- The `float` nearest to `q`, ties to even: the rounding of every `float` operation. -/
def roundF32 (q : ℚ) : ℚ :=
  if q = 0 then 0
  else if 0 < q then (roundHalfEven (q / ulpF32 q) : ℚ) * ulpF32 q
  else -((roundHalfEven (-q / ulpF32 q) : ℚ) * ulpF32 q)

/-- The variables of the loop of `SA`, with a ghost counter of executed passes. -/
structure Loop where
  current : State
  T : ℚ
  finalStateFound : Bool
  draws : List Nat
  steps : Nat
deriving DecidableEq

/-- The test `p > rand() / double(RAND_MAX)` after `int c = cost(current) - cost(neighbour);
int p = exp(c / T);`, where `expInt` applied to the exact quotient stands for the `float`
division, the library's `exp` and the conversion to `int` together, and `u` is the draw. -/
def acceptsNotBetter (RAND_MAX : Nat) (expInt : ℚ → ℤ) (costCurrent costNeighbour : Int)
    (T : ℚ) (u : Int) : Bool :=
  let c := costCurrent - costNeighbour
  let p := expInt ((c : ℚ) / T)
  decide ((p : ℚ) > (u : ℚ) / (RAND_MAX : ℚ))

/-- The `if`/`else` of the loop body of `SA` that picks the next `current`. -/
def chooseCurrent (RAND_MAX : Nat) (expInt : ℚ → ℤ) (current neighbour : State)
    (costCurrent costNeighbour : Int) (T : ℚ) (draws : List Nat) :
    Except Fault (State × List Nat) :=
  if costNeighbour < costCurrent then
    .ok (neighbour, draws)
  else
    match rand draws with
    | .error e => .error e
    | .ok (u, draws1) =>
      if acceptsNotBetter RAND_MAX expInt costCurrent costNeighbour T u then
        .ok (neighbour, draws1)
      else
        .ok (current, draws1)

/-- One pass through the body of the `while` loop of `SA`; `T *= deltaT` is a `float`
multiplication. -/
def SA_body (RAND_MAX : Nat) (expInt : ℚ → ℤ) (deltaT : ℚ) (l : Loop) : Except Fault Loop :=
  match l.current.makeRandomMove l.draws with
  | .error e => .error e
  | .ok (neighbour, draws1) =>
    match cost neighbour with
    | .error e => .error e
    | .ok costNeighbour =>
      match cost l.current with
      | .error e => .error e
      | .ok costCurrent =>
        match chooseCurrent RAND_MAX expInt l.current neighbour costCurrent costNeighbour
            l.T draws1 with
        | .error e => .error e
        | .ok (current1, draws3) =>
          match cost current1 with
          | .error e => .error e
          | .ok costFinal =>
            .ok ⟨current1, roundF32 (l.T * deltaT),
              if costFinal = 0 then true else l.finalStateFound, draws3, l.steps + 1⟩

/-- The `while(T > 2 && !finalStateFound)` loop of `SA`, run for at most `fuel` passes;
`none` when the loop is still running after `fuel` passes. -/
def SA_loop (RAND_MAX : Nat) (expInt : ℚ → ℤ) (deltaT : ℚ) :
    Nat → Loop → Option (Except Fault Loop)
  | fuel, l =>
    if l.T > 2 ∧ l.finalStateFound = false then
      match fuel with
      | 0 => none
      | fuel1 + 1 =>
        match SA_body RAND_MAX expInt deltaT l with
        | .error e => some (.error e)
        | .ok l1 => SA_loop RAND_MAX expInt deltaT fuel1 l1
    else
      some (.ok l)

/-- The function `SA`, with the loop variables at the exit as its result;
`State * SA(...)` returns their field `current`. -/
def SA (RAND_MAX : Nat) (expInt : ℚ → ℤ) (fuel : Nat) (startingState : State)
    (Tparam deltaTparam : ℚ) (draws : List Nat) : Option (Except Fault Loop) :=
  SA_loop RAND_MAX expInt deltaTparam fuel ⟨startingState, Tparam, false, draws, 0⟩

/-! ### Vocabulary of the specification -/

/-- A coordinate on the 8×8 board: row and column in `[0,8)`. -/
def InRange (p : Square) : Prop := 0 ≤ p.1 ∧ p.1 < 8 ∧ 0 ≤ p.2 ∧ p.2 < 8

instance : DecidablePred InRange := fun p => by unfold InRange; infer_instance

/-- A state with exactly 8 queens, all on the board, on pairwise distinct squares. -/
def Valid (s : State) : Prop :=
  s.queenLocations.length = 8 ∧ (∀ p ∈ s.queenLocations, InRange p) ∧ s.queenLocations.Nodup

instance : DecidablePred Valid := fun s => by unfold Valid; infer_instance

/-- Two squares on a common row, column, `\` diagonal (row − col constant) or `/` diagonal
(row + col constant). -/
def SharesLine (p q : Square) : Prop :=
  p.1 = q.1 ∨ p.2 = q.2 ∨ p.1 - p.2 = q.1 - q.2 ∨ p.1 + p.2 = q.1 + q.2

instance : DecidableRel SharesLine := fun p q => by unfold SharesLine; infer_instance

/-- No two queens of the list share a row, a column or either diagonal. -/
def NonAttacking (L : List Square) : Prop := L.Pairwise fun p q => ¬ SharesLine p q

instance : DecidablePred NonAttacking := fun L => by unfold NonAttacking; infer_instance

/-- A grid of 8 rows of 8 cells. -/
def Grid8 (board : List (List Int)) : Prop := board.length = 8 ∧ ∀ row ∈ board, row.length = 8

instance : DecidablePred Grid8 := fun b => by unfold Grid8; infer_instance

/-- Occupancy consistency: the grid is 8×8 and cell `(r,c)` is 1 when `(r,c)` is a queen
coordinate and 0 otherwise. -/
def Consistent (s : State) : Prop :=
  Grid8 s.board ∧
    ∀ r < 8, ∀ c < 8, getCell s.board (r : Nat) (c : Nat) =
      .ok (if ((r : Int), (c : Int)) ∈ s.queenLocations then 1 else 0)

instance {ε α : Type} [DecidableEq ε] [DecidableEq α] : DecidableEq (Except ε α) := fun a b =>
  match a, b with
  | .ok x, .ok y =>
    if h : x = y then isTrue (by rw [h]) else isFalse (by intro e; cases e; exact h rfl)
  | .error x, .error y =>
    if h : x = y then isTrue (by rw [h]) else isFalse (by intro e; cases e; exact h rfl)
  | .ok _, .error _ => isFalse (by intro e; cases e)
  | .error _, .ok _ => isFalse (by intro e; cases e)

instance : DecidablePred Consistent := fun s => by unfold Consistent; infer_instance

/-- What a line holding `k` queens adds to the cost: `k` when `k > 1`, else nothing. -/
def crowded (k : Int) : Int := if k > 1 then k else 0

/-- Number of queens of `L` on the line given by the test `line`. -/
def queensOn (L : List Square) (line : Square → Bool) : Int := (L.countP line : Nat)

/-- Sum over the lines of one family of the contribution of each line. -/
def familyCost (L : List Square) (lines : List (Square → Bool)) : Int :=
  (lines.map fun line => crowded (queensOn L line)).sum

/-- The cost as the specification words it: the four line families (8 rows, 8 columns,
15 `/` diagonals row + col = d, 15 `\` diagonals row − col = d) summed independently. -/
def specCost (L : List Square) : Int :=
  familyCost L ((List.range 8).map fun (r : Nat) (p : Square) => p.1 == (r : Int)) +
  familyCost L ((List.range 8).map fun (c : Nat) (p : Square) => p.2 == (c : Int)) +
  familyCost L ((List.range 15).map fun (d : Nat) (p : Square) => p.1 + p.2 == (d : Int)) +
  familyCost L ((List.range 15).map fun (d : Nat) (p : Square) => p.1 - p.2 == (d : Int) - 7)

/-- The tally vector of size `n` for the index list `idx`: entry `k` is the number of
occurrences of `k` in `idx`. -/
def tallyOf (n : Nat) (idx : List Int) : List Int :=
  (List.range n).map fun (k : Nat) => ((idx.count (k : Int) : Nat) : Int)

/-- A board on which two pairs of queens share a `/` diagonal, although rows, columns and
`\` diagonals are all different. -/
def antiDiagonalClash : State :=
  ⟨[[1, 0, 0, 0, 0, 0, 0, 0],
    [0, 0, 1, 0, 0, 0, 0, 0],
    [0, 0, 0, 0, 0, 1, 0, 0],
    [0, 0, 0, 0, 0, 0, 0, 1],
    [0, 0, 0, 0, 0, 0, 1, 0],
    [0, 0, 0, 1, 0, 0, 0, 0],
    [0, 1, 0, 0, 0, 0, 0, 0],
    [0, 0, 0, 0, 1, 0, 0, 0]],
   [(0, 0), (1, 2), (2, 5), (3, 7), (4, 6), (5, 3), (6, 1), (7, 4)]⟩

/-- The known solution quoted by the specification. -/
def knownSolution : State :=
  ⟨[[1, 0, 0, 0, 0, 0, 0, 0],
    [0, 0, 0, 0, 1, 0, 0, 0],
    [0, 0, 0, 0, 0, 0, 0, 1],
    [0, 0, 0, 0, 0, 1, 0, 0],
    [0, 0, 1, 0, 0, 0, 0, 0],
    [0, 0, 0, 0, 0, 0, 1, 0],
    [0, 1, 0, 0, 0, 0, 0, 0],
    [0, 0, 0, 1, 0, 0, 0, 0]],
   [(0, 0), (1, 4), (2, 7), (3, 5), (4, 2), (5, 6), (6, 1), (7, 3)]⟩

/-- What is assumed of the C library behind `(int) exp(c / T)` on quotients `x ≤ 0`: the
result is 1 when the exact exponential is within `2⁻⁶⁰` of 1 (the nearest `float`, and the
nearest `double`, is then 1.0), and 0 when the exact exponential is at most `1 − 2⁻²³`,
two units in the last place of binary32 below 1 (the computed value is then below 1).
Nothing is assumed in between, nor for `x > 0`. -/
def LibmExp (expInt : ℚ → ℤ) : Prop :=
  ∀ x : ℚ, x ≤ 0 →
    (1 - (2 : ℝ) ^ (-60 : ℤ) ≤ Real.exp (x : ℝ) → expInt x = 1) ∧
    (Real.exp (x : ℝ) ≤ 1 - (2 : ℝ) ^ (-23 : ℤ) → expInt x = 0)

/-- A function that meets `LibmExp`, to run examples: 1 from `−2⁻⁵⁹` up, 0 below. -/
def sampleExpInt (x : ℚ) : ℤ := if x < -(1 / 2 ^ 59) then 0 else 1

/-- The temperature after `n` passes of the loop: `T *= deltaT` in `float`, `n` times. -/
def cooled (T0 deltaT : ℚ) : Nat → ℚ
  | 0 => T0
  | n + 1 => roundF32 (cooled T0 deltaT n * deltaT)

/-- The `float` 0.999f that `main` passes as `deltaT`. -/
def deltaT0999 : ℚ := 16760439 / 16777216

/-- The draws on which `generateRandom` builds `antiDiagonalClash`. -/
def antiDiagonalClashDraws : List Nat := [0, 0, 1, 2, 2, 5, 3, 7, 4, 6, 5, 3, 6, 1, 7, 4]

/-- Draws on which `generateRandom` builds `knownSolution`; the draw (0,0) is rejected
once. -/
def knownSolutionDraws : List Nat := [0, 0, 0, 0, 1, 4, 2, 7, 3, 5, 4, 2, 5, 6, 6, 1, 7, 3]

/-- The state `knownSolution` after its queen of index 5 has moved from (5,6) to (3,3). -/
def movedSolution : State :=
  ⟨[[1, 0, 0, 0, 0, 0, 0, 0],
    [0, 0, 0, 0, 1, 0, 0, 0],
    [0, 0, 0, 0, 0, 0, 0, 1],
    [0, 0, 0, 1, 0, 1, 0, 0],
    [0, 0, 1, 0, 0, 0, 0, 0],
    [0, 0, 0, 0, 0, 0, 0, 0],
    [0, 1, 0, 0, 0, 0, 0, 0],
    [0, 0, 0, 1, 0, 0, 0, 0]],
   [(0, 0), (1, 4), (2, 7), (3, 5), (4, 2), (3, 3), (6, 1), (7, 3)]⟩

/-- Draws on which `makeRandomMove` turns `knownSolution` into `movedSolution`: the
occupied square (1,4) is rejected, (3,3) is the target and 5 the queen index. -/
def moveDraws : List Nat := [1, 4, 3, 3, 5]

/-- Draws on which `makeRandomMove` turns `movedSolution` back into `knownSolution`. -/
def backDraws : List Nat := [5, 6, 5]

/-- Draws for a run of two passes from `movedSolution`: queen 0 moves to (0,1), then the
move of queen 1 to (7,0) is proposed and the draw 5 decides on it. -/
def twoPassDraws : List Nat := [0, 1, 0, 7, 0, 1, 5]

/-- The loop variables at the exit of the one-pass run from `movedSolution` on
`backDraws` at `T = 100`, `deltaT = 0.999f`; the temperature is the `float` 99.9000015…. -/
def oneBackExit : Loop := ⟨knownSolution, 13094093 / 131072, true, [], 1⟩

/-- The state `movedSolution` after its queen of index 0 has moved from (0,0) to (1,2); its
cost is 8, as before the move. -/
def sidewaysState : State :=
  ⟨[[0, 0, 0, 0, 0, 0, 0, 0],
    [0, 0, 1, 0, 1, 0, 0, 0],
    [0, 0, 0, 0, 0, 0, 0, 1],
    [0, 0, 0, 1, 0, 1, 0, 0],
    [0, 0, 1, 0, 0, 0, 0, 0],
    [0, 0, 0, 0, 0, 0, 0, 0],
    [0, 1, 0, 0, 0, 0, 0, 0],
    [0, 0, 0, 1, 0, 0, 0, 0]],
   [(1, 2), (1, 4), (2, 7), (3, 5), (4, 2), (3, 3), (6, 1), (7, 3)]⟩

/-- Draws on which `makeRandomMove` turns `movedSolution` into `sidewaysState`. -/
def sidewaysDraws : List Nat := [1, 2, 0]

/-- The loop variables at the exit of the two-pass run from `movedSolution` on
`twoPassDraws` at `T = 8`, `deltaT = 1/2`. -/
def twoPassExit : Loop :=
  ⟨⟨[[0, 1, 0, 0, 0, 0, 0, 0],
     [0, 0, 0, 0, 1, 0, 0, 0],
     [0, 0, 0, 0, 0, 0, 0, 1],
     [0, 0, 0, 1, 0, 1, 0, 0],
     [0, 0, 1, 0, 0, 0, 0, 0],
     [0, 0, 0, 0, 0, 0, 0, 0],
     [0, 1, 0, 0, 0, 0, 0, 0],
     [0, 0, 0, 1, 0, 0, 0, 0]],
    [(0, 1), (1, 4), (2, 7), (3, 5), (4, 2), (3, 3), (6, 1), (7, 3)]⟩, 2, false, [], 2⟩

/-- The 64 squares of the board, row by row. -/
def allSquares : List Square :=
  (List.range 8).flatMap fun (r : Nat) =>
    (List.range 8).map fun (c : Nat) => ((r : Int), (c : Int))

/-- The squares of the board that are not in `used`: the draws that end the rejection
loop. -/
def freeSquares (used : List Square) : List Square :=
  allSquares.filter fun sq => decide (sq ∉ used)

/-- The states that `makeRandomMove` returns from `s` on the draws that pick a free target
square at once and then the queen index `r`, for every `r` in `[0,8)` and every free
square. -/
def neighbours (s : State) : List State :=
  (List.range 8).flatMap fun (r : Nat) =>
    (freeSquares s.queenLocations).filterMap fun sq =>
      match s.makeRandomMove [sq.1.toNat, sq.2.toNat, r] with
      | .ok (t, _) => some t
      | .error _ => none

/-! ### The cost function -/

theorem addCrowded_eq (v : List Int) (c : Int) :
    addCrowded c v = c + (v.map crowded).sum := by
  induction v generalizing c with
  | nil => simp [addCrowded]
  | cons x xs ih =>
    simp only [addCrowded, ih, List.map_cons, List.sum_cons, crowded]
    split <;> ring

theorem tallyOf_length (n : Nat) (idx : List Int) : (tallyOf n idx).length = n := by
  simp [tallyOf]

theorem incrAt_tallyOf (n : Nat) (idx : List Int) (i : Int) (h0 : 0 ≤ i) (hn : i < n) :
    incrAt (tallyOf n idx) i = .ok (tallyOf n (i :: idx)) := by
  obtain ⟨m, rfl⟩ := Int.eq_ofNat_of_zero_le h0
  have hm : m < n := by exact_mod_cast hn
  unfold incrAt
  rw [if_pos ⟨h0, by simpa [tallyOf_length] using hn⟩]
  congr 1
  apply List.ext_getElem
  · simp [tallyOf]
  · intro k h1 h2
    simp only [tallyOf, List.length_map, List.length_range] at h2
    simp only [Int.toNat_ofNat, List.getElem_set, tallyOf, List.getElem_map, List.getElem_range, List.count_cons]
    by_cases hk : m = k
    · subst hk
      simp [List.getD_eq_getElem?_getD, hm]
    · have : ¬ ((m : Int) = (k : Int)) := by exact_mod_cast hk
      simp [hk, this]

theorem tallyOf_nil (n : Nat) : tallyOf n [] = List.replicate n 0 := by
  apply List.ext_getElem
  · simp [tallyOf]
  · intro k h1 h2
    simp [tallyOf]

theorem tallyOf_reverse (n : Nat) (idx : List Int) : tallyOf n idx.reverse = tallyOf n idx := by
  simp [tallyOf, List.count_reverse]

theorem countRowsColumns_tallyOf (ps : List Square) (hps : ∀ p ∈ ps, InRange p)
    (R C : List Int) :
    countRowsColumns ps (tallyOf 8 R) (tallyOf 8 C) =
      .ok (tallyOf 8 ((ps.map Prod.fst).reverse ++ R), tallyOf 8 ((ps.map Prod.snd).reverse ++ C)) := by
  induction ps generalizing R C with
  | nil => simp [countRowsColumns]
  | cons p ps ih =>
    have hp : InRange p := hps p (List.mem_cons_self _ _)
    obtain ⟨h1, h2, h3, h4⟩ := hp
    simp only [countRowsColumns]
    rw [incrAt_tallyOf 8 R p.1 h1 (by exact_mod_cast h2),
      incrAt_tallyOf 8 C p.2 h3 (by exact_mod_cast h4)]
    simp only
    rw [ih (fun q hq => hps q (List.mem_cons_of_mem _ hq))]
    simp

theorem countDiagonals_tallyOf (ps : List Square) (hps : ∀ p ∈ ps, InRange p)
    (N P : List Int) :
    countDiagonals ps (tallyOf 16 N) (tallyOf 16 P) =
      .ok (tallyOf 16 ((ps.map fun p => (p.1 - p.2) + 8).reverse ++ N),
        tallyOf 16 ((ps.map fun p => (p.2 - p.1) + 8).reverse ++ P)) := by
  induction ps generalizing N P with
  | nil => simp [countDiagonals]
  | cons p ps ih =>
    have hp : InRange p := hps p (List.mem_cons_self _ _)
    obtain ⟨h1, h2, h3, h4⟩ := hp
    simp only [countDiagonals]
    rw [incrAt_tallyOf 16 N _ (by omega) (by push_cast; omega),
      incrAt_tallyOf 16 P _ (by omega) (by push_cast; omega)]
    simp only
    rw [ih (fun q hq => hps q (List.mem_cons_of_mem _ hq))]
    simp

/-- Closed form of `State::cost` on in-range coordinates. -/
theorem cost_eq (s : State) (hs : ∀ p ∈ s.queenLocations, InRange p) :
    cost s = .ok (((tallyOf 8 (s.queenLocations.map Prod.fst)).map crowded).sum +
      ((tallyOf 8 (s.queenLocations.map Prod.snd)).map crowded).sum +
      ((tallyOf 16 (s.queenLocations.map fun p => (p.1 - p.2) + 8)).map crowded).sum +
      ((tallyOf 16 (s.queenLocations.map fun p => (p.2 - p.1) + 8)).map crowded).sum) := by
  unfold cost
  rw [← tallyOf_nil 8, ← tallyOf_nil 16, countRowsColumns_tallyOf _ hs, countDiagonals_tallyOf _ hs]
  simp only [List.append_nil, tallyOf_reverse, addCrowded_eq, zero_add]

theorem crowded_tallyOf_nodup (n : Nat) (idx : List Int) (h : idx.Nodup) :
    ((tallyOf n idx).map crowded).sum = 0 := by
  apply List.sum_eq_zero
  intro x hx
  simp only [tallyOf, List.map_map, List.mem_map, List.mem_range, Function.comp] at hx
  obtain ⟨k, _, rfl⟩ := hx
  have := List.nodup_iff_count_le_one.mp h (k : Int)
  unfold crowded
  rw [if_neg]
  omega

theorem nodup_map_of_pairwise {α β : Type} (f : α → β) (L : List α)
    (R : α → α → Prop) (hR : ∀ a b, R a b → f a ≠ f b) (h : L.Pairwise R) :
    (L.map f).Nodup := by
  unfold List.Nodup
  rw [List.pairwise_map]
  exact h.imp (fun {a b} hab => hR a b hab)

theorem cost_zero_of_nonAttacking (s : State) (hin : ∀ p ∈ s.queenLocations, InRange p)
    (hna : NonAttacking s.queenLocations) : cost s = .ok 0 := by
  rw [cost_eq s hin]
  rw [crowded_tallyOf_nodup 8 _ (nodup_map_of_pairwise Prod.fst _ _ ?_ hna),
    crowded_tallyOf_nodup 8 _ (nodup_map_of_pairwise Prod.snd _ _ ?_ hna),
    crowded_tallyOf_nodup 16 _ (nodup_map_of_pairwise _ _ _ ?_ hna),
    crowded_tallyOf_nodup 16 _ (nodup_map_of_pairwise _ _ _ ?_ hna)]
  · rfl
  all_goals
    intro a b hab heq
    apply hab
    unfold SharesLine
    omega

/-- C1, evaluated on the code: `antiDiagonalClash` is a state that `generateRandom`
returns, it has 8 in-range queens on pairwise distinct squares and a consistent grid, its
queens (2,5),(6,1) and (3,7),(4,6) share `/` diagonals, and `State::cost` is 0 on it. So
cost 0 does not imply that no two queens share a line: both diagonal tallies of the code
are indexed by row − col, and no tally is indexed by row + col. -/
theorem cost_zero_on_antiDiagonalClash :
    generateRandom antiDiagonalClashDraws = .ok (antiDiagonalClash, []) ∧
    Valid antiDiagonalClash ∧ Consistent antiDiagonalClash ∧
    cost antiDiagonalClash = .ok 0 ∧
    SharesLine (2, 5) (6, 1) ∧ SharesLine (3, 7) (4, 6) ∧
    ¬ NonAttacking antiDiagonalClash.queenLocations := by
  decide

/-- C2, evaluated on the code: on `antiDiagonalClash`, a state with in-range coordinates,
the sum over the four line families of the specification is 4 (the `/` diagonals
row + col = 7 and row + col = 10 hold two queens each), and `State::cost` returns 0. -/
theorem cost_ne_specCost_on_antiDiagonalClash :
    (∀ p ∈ antiDiagonalClash.queenLocations, InRange p) ∧
    specCost antiDiagonalClash.queenLocations = 4 ∧
    familyCost antiDiagonalClash.queenLocations
      ((List.range 15).map fun (d : Nat) (p : Square) => p.1 + p.2 == (d : Int)) = 4 ∧
    cost antiDiagonalClash = .ok 0 := by
  decide

/-- C3: on every placement of queens on the board in which no two queens share a row, a
column, a `\` diagonal or a `/` diagonal (in particular on every such placement of 8
queens), `State::cost` returns 0; and the state with queens at
(0,0),(1,4),(2,7),(3,5),(4,2),(5,6),(6,1),(7,3) has cost 0, whatever its grid. -/
theorem cost_nonAttacking (s : State) (hin : ∀ p ∈ s.queenLocations, InRange p)
    (hna : NonAttacking s.queenLocations) :
    cost s = .ok 0 ∧
    ∀ board : List (List Int),
      cost ⟨board, [(0, 0), (1, 4), (2, 7), (3, 5), (4, 2), (5, 6), (6, 1), (7, 3)]⟩ = .ok 0 :=
  ⟨cost_zero_of_nonAttacking s hin hna,
    fun board => cost_zero_of_nonAttacking ⟨board, _⟩
      (show ∀ p ∈ knownSolution.queenLocations, InRange p by decide)
      (show NonAttacking knownSolution.queenLocations by decide)⟩

/-- Witness for C3 at the known solution of the specification. -/
theorem cost_nonAttacking_witness :
    knownSolution.queenLocations.length = 8 ∧
    (∀ p ∈ knownSolution.queenLocations, InRange p) ∧
    NonAttacking knownSolution.queenLocations ∧
    cost knownSolution = .ok 0 :=
  ⟨by decide, by decide, by decide,
    (cost_nonAttacking knownSolution (by decide) (by decide)).1⟩

/-! ### Random states and random moves -/

theorem whileUsed_spec (used : List Square) (i j : Int) (draws : List Nat)
    (sq : Square) (rest : List Nat) (hin : InRange (i, j))
    (h : whileUsed used i j draws = .ok (sq, rest)) : InRange sq ∧ sq ∉ used := by
  induction i, j, draws using whileUsed.induct used with
  | case1 i j hc a b tl ih =>
    rw [whileUsed, if_pos hc] at h
    exact ih (by unfold InRange; simp only; omega) h
  | case2 i j draws hc hno =>
    unfold whileUsed at h
    rw [if_pos hc] at h
    split at h
    · exact (hno _ _ _ rfl).elim
    · cases h
  | case3 i j draws hc =>
    unfold whileUsed at h
    rw [if_neg hc] at h
    cases h
    refine ⟨hin, ?_⟩
    intro hmem
    exact hc (by
      have := List.count_pos_iff.mpr hmem
      omega)

theorem getD_mem_of_lt {α : Type} (L : List α) (m : Nat) (d : α) (h : m < L.length) :
    L.getD m d ∈ L := by
  rw [List.getD_eq_getElem?_getD, List.getElem?_eq_getElem h]
  exact List.getElem_mem h

theorem setCell_ok (b : List (List Int)) (i j x : Int) (hb : Grid8 b) (hin : InRange (i, j)) :
    ∃ b1, setCell b i j x = .ok b1 := by
  obtain ⟨h1, h2, h3, h4⟩ := hin
  simp only at h1 h2 h3 h4
  have hlen := hb.1
  have hrow : (b.getD i.toNat []).length = 8 := hb.2 _ (getD_mem_of_lt b _ _ (by omega))
  unfold setCell
  rw [if_pos ⟨h1, by omega⟩, if_pos ⟨h3, by omega⟩]
  exact ⟨_, rfl⟩

theorem getCell_eq (b : List (List Int)) (hb : Grid8 b) (r c : Nat) (hr : r < 8) (hc : c < 8) :
    getCell b (r : Nat) (c : Nat) = .ok ((b.getD r []).getD c 0) := by
  have hlen := hb.1
  have hrow : (b.getD r []).length = 8 := hb.2 _ (getD_mem_of_lt b _ _ (by omega))
  unfold getCell
  simp only [Int.toNat_ofNat]
  rw [if_pos ⟨by omega, by omega⟩, if_pos ⟨by omega, by omega⟩]

theorem setCell_spec (b b1 : List (List Int)) (i j x : Int) (hb : Grid8 b)
    (h : setCell b i j x = .ok b1) :
    InRange (i, j) ∧ Grid8 b1 ∧
      ∀ r < 8, ∀ c < 8, getCell b1 (r : Nat) (c : Nat) =
        if (r : Int) = i ∧ (c : Int) = j then .ok x else getCell b (r : Nat) (c : Nat) := by
  unfold setCell at h
  split at h
  · rename_i hi
    split at h
    · rename_i hj
      cases h
      have hlen := hb.1
      have hrow : (b.getD i.toNat []).length = 8 := hb.2 _ (getD_mem_of_lt b _ _ (by omega))
      have hin : InRange (i, j) := ⟨hi.1, by have := hi.2; omega, hj.1, by have := hj.2; omega⟩
      have hg : Grid8 (b.set i.toNat ((b.getD i.toNat []).set j.toNat x)) := by
        refine ⟨by simpa using hlen, ?_⟩
        intro row hrowmem
        rcases List.mem_or_eq_of_mem_set hrowmem with hm | rfl
        · exact hb.2 row hm
        · simpa using hrow
      refine ⟨hin, hg, ?_⟩
      intro r hr c hc
      rw [getCell_eq _ hg r c hr hc, getCell_eq _ hb r c hr hc]
      obtain ⟨m, rfl⟩ := Int.eq_ofNat_of_zero_le hi.1
      obtain ⟨n, rfl⟩ := Int.eq_ofNat_of_zero_le hj.1
      have hm : m < 8 := by have := hi.2; omega
      have hn : n < 8 := by have := hj.2; omega
      simp only [Int.toNat_ofNat, Nat.cast_inj] at hrow ⊢
      by_cases hrm : r = m
      · subst hrm
        have e1 : (b.set r ((b.getD r []).set n x)).getD r [] = (b.getD r []).set n x := by
          simp [List.getD_eq_getElem?_getD, List.getElem?_set, hlen, hr]
        rw [e1]
        by_cases hcn : c = n
        · subst hcn
          have hrow2 : (b[r]?.getD []).length = 8 := by
            simpa [List.getD_eq_getElem?_getD] using hrow
          simp [List.getD_eq_getElem?_getD, List.getElem?_set, hrow2, hc]
        · have : ¬ n = c := fun e => hcn e.symm
          simp [List.getD_eq_getElem?_getD, List.getElem?_set, hcn, this]
      · have hmr : ¬ m = r := fun e => hrm e.symm
        have e1 : (b.set m ((b.getD m []).set n x)).getD r [] = b.getD r [] := by
          simp [List.getD_eq_getElem?_getD, List.getElem?_set, hmr]
        rw [e1]
        simp [hrm]
    · cases h
  · cases h

theorem mem_set_iff {α : Type} (L : List α) (hL : L.Nodup) (k : Nat) (hk : k < L.length)
    (x y d : α) : x ∈ L.set k y ↔ x = y ∨ (x ∈ L ∧ x ≠ L.getD k d) := by
  induction L generalizing k with
  | nil => simp at hk
  | cons a tl ih =>
    have hnd := List.nodup_cons.mp hL
    cases k with
    | zero =>
      simp only [List.set_cons_zero, List.mem_cons, List.getD_cons_zero]
      constructor
      · rintro (h | h)
        · exact Or.inl h
        · exact Or.inr ⟨Or.inr h, fun e => hnd.1 (e ▸ h)⟩
      · rintro (h | ⟨h1 | h1, h2⟩)
        · exact Or.inl h
        · exact absurd h1 h2
        · exact Or.inr h1
    | succ k =>
      have hk2 : k < tl.length := by simpa using hk
      have hmem : tl.getD k d ∈ tl := by
        rw [List.getD_eq_getElem?_getD, List.getElem?_eq_getElem hk2]
        exact List.getElem_mem hk2
      simp only [List.set_cons_succ, List.mem_cons, List.getD_cons_succ, ih hnd.2 k hk2]
      constructor
      · rintro (h | h | ⟨h1, h2⟩)
        · exact Or.inr ⟨Or.inl h, fun e => hnd.1 (by rw [← h, e]; exact hmem)⟩
        · exact Or.inl h
        · exact Or.inr ⟨Or.inr h1, h2⟩
      · rintro (h | ⟨h1 | h1, h2⟩)
        · exact Or.inr (Or.inl h)
        · exact Or.inl h1
        · exact Or.inr (Or.inr ⟨h1, h2⟩)

theorem nodup_set {α : Type} (L : List α) (hL : L.Nodup) (k : Nat) (y : α) (hy : y ∉ L) :
    (L.set k y).Nodup := by
  induction L generalizing k with
  | nil => simp
  | cons a tl ih =>
    have hnd := List.nodup_cons.mp hL
    have hya : y ≠ a := fun e => hy (e ▸ List.mem_cons_self _ _)
    have hytl : y ∉ tl := fun h => hy (List.mem_cons_of_mem _ h)
    cases k with
    | zero =>
      simp only [List.set_cons_zero]
      exact List.nodup_cons.mpr ⟨hytl, hnd.2⟩
    | succ k =>
      simp only [List.set_cons_succ]
      refine List.nodup_cons.mpr ⟨?_, ih hnd.2 k hytl⟩
      intro hmem
      rcases List.mem_or_eq_of_mem_set hmem with h | h
      · exact hnd.1 h
      · exact hya h.symm

/-- The invariant of the placement loop of `generateRandom`. -/
theorem placeLoop_spec (k : Nat) :
    ∀ (board : List (List Int)) (i j : Int) (used : List Square) (draws : List Nat)
      (s : State) (rest : List Nat), InRange (i, j) → (∀ p ∈ used, InRange p) → used.Nodup →
      Consistent ⟨board, used⟩ → placeLoop k board i j used draws = .ok (s, rest) →
      s.queenLocations.length = used.length + k ∧ (∀ p ∈ s.queenLocations, InRange p) ∧
        s.queenLocations.Nodup ∧ Consistent s := by
  induction k with
  | zero =>
    intro board i j used draws s rest _ hin hnd hcons h
    simp only [placeLoop] at h
    cases h
    exact ⟨rfl, hin, hnd, hcons⟩
  | succ k ih =>
    intro board i j used draws s rest hij hin hnd hcons h
    simp only [placeLoop] at h
    split at h
    · cases h
    · rename_i i1 j1 draws1 hw
      obtain ⟨hin1, hnot1⟩ := whileUsed_spec used i j draws _ _ hij hw
      split at h
      · cases h
      · rename_i board1 hset
        obtain ⟨_, hg1, hcell1⟩ := setCell_spec board board1 i1 j1 1 hcons.1 hset
        have := ih board1 i1 j1 (used ++ [(i1, j1)]) draws1 s rest hin1
          (by
            intro p hp
            rcases List.mem_append.mp hp with hp | hp
            · exact hin p hp
            · rw [List.mem_singleton.mp hp]; exact hin1)
          (by
            rw [List.nodup_append]
            refine ⟨hnd, List.nodup_singleton _, ?_⟩
            intro a ha hb
            rw [List.mem_singleton.mp hb] at ha
            exact hnot1 ha)
          (by
            refine ⟨hg1, ?_⟩
            intro r hr c hc
            rw [hcell1 r hr c hc, hcons.2 r hr c hc]
            by_cases e : (r : Int) = i1 ∧ (c : Int) = j1
            · simp [e.1, e.2]
            · have : ¬ (((r : Int), (c : Int)) = (i1, j1)) := by
                intro e2
                exact e (by simpa using e2)
              simp [e, this])
          h
        refine ⟨?_, this.2⟩
        rw [this.1]
        simp
        omega

theorem generateRandom_spec (draws : List Nat) (s : State) (rest : List Nat)
    (h : generateRandom draws = .ok (s, rest)) : Valid s ∧ Consistent s := by
  unfold generateRandom at h
  split at h
  · cases h
  · rename_i a draws1 h1
    split at h
    · cases h
    · rename_i b draws2 h2
      have ha : 0 ≤ a := by
        unfold rand at h1
        split at h1
        · cases h1
        · cases h1; exact Int.ofNat_nonneg _
      have hb : 0 ≤ b := by
        unfold rand at h2
        split at h2
        · cases h2
        · cases h2; exact Int.ofNat_nonneg _
      have := placeLoop_spec 8 emptyBoard (a % 8) (b % 8) [] draws2 s rest
        (by unfold InRange; simp only; omega) (by simp) (by simp) (by decide) h
      exact ⟨⟨by simpa using this.1, this.2.1, this.2.2.1⟩, this.2.2.2⟩

theorem rand_nonneg (draws rest : List Nat) (a : Int) (h : rand draws = .ok (a, rest)) :
    0 ≤ a := by
  unfold rand at h
  split at h
  · cases h
  · cases h; exact Int.ofNat_nonneg _

theorem queenAt_spec (L : List Square) (r : Int) (old : Square) (h : queenAt L r = .ok old) :
    0 ≤ r ∧ r.toNat < L.length ∧ old = L.getD r.toNat (0, 0) := by
  unfold queenAt at h
  split at h
  · rename_i hr
    cases h
    exact ⟨hr.1, by have := hr.2; omega, rfl⟩
  · cases h

/-- What a returning call of `makeRandomMove` has done. -/
theorem makeRandomMove_inv (s t : State) (draws rest : List Nat)
    (h : s.makeRandomMove draws = .ok (t, rest)) :
    ∃ (sq : Square) (r : Nat) (board1 : List (List Int)),
      InRange sq ∧ sq ∉ s.queenLocations ∧ r < 8 ∧ r < s.queenLocations.length ∧
      setCell s.board (s.queenLocations.getD r (0, 0)).1 (s.queenLocations.getD r (0, 0)).2 0 =
        .ok board1 ∧
      setCell board1 sq.1 sq.2 1 = .ok t.board ∧
      t.queenLocations = s.queenLocations.set r sq := by
  unfold State.makeRandomMove at h
  split at h
  · cases h
  · rename_i a draws1 h1
    split at h
    · cases h
    · rename_i b draws2 h2
      split at h
      · cases h
      · rename_i i j draws3 hw
        split at h
        · cases h
        · rename_i c draws4 h3
          simp only at h
          split at h
          · cases h
          · rename_i old hq
            split at h
            · cases h
            · rename_i board1 hs1
              split at h
              · cases h
              · rename_i board2 hs2
                cases h
                have ha := rand_nonneg _ _ _ h1
                have hb := rand_nonneg _ _ _ h2
                have hc := rand_nonneg _ _ _ h3
                obtain ⟨hin, hnot⟩ := whileUsed_spec _ (a % 8) (b % 8) draws2 _ _
                  (by unfold InRange; simp only; omega) hw
                obtain ⟨hr0, hrlen, hold⟩ := queenAt_spec _ _ _ hq
                refine ⟨(i, j), (c % 8).toNat, board1, hin, hnot, by omega, hrlen, ?_, hs2, rfl⟩
                rw [← hold]
                exact hs1

theorem makeRandomMove_valid (s t : State) (draws rest : List Nat) (hs : Valid s)
    (h : s.makeRandomMove draws = .ok (t, rest)) : Valid t := by
  obtain ⟨sq, r, board1, hin, hnot, _, _, _, _, hq⟩ := makeRandomMove_inv s t draws rest h
  obtain ⟨hlen, hrange, hnd⟩ := hs
  refine ⟨by rw [hq, List.length_set]; exact hlen, ?_, by rw [hq]; exact nodup_set _ hnd _ _ hnot⟩
  intro p hp
  rw [hq] at hp
  rcases List.mem_or_eq_of_mem_set hp with hp | hp
  · exact hrange p hp
  · rw [hp]; exact hin

theorem makeRandomMove_consistent (s t : State) (draws rest : List Nat) (hc : Consistent s)
    (hnd : s.queenLocations.Nodup) (h : s.makeRandomMove draws = .ok (t, rest)) :
    Consistent t := by
  obtain ⟨sq, r, board1, hin, hnot, _, hr, hs1, hs2, hq⟩ := makeRandomMove_inv s t draws rest h
  obtain ⟨hold, hg1, hcell1⟩ := setCell_spec _ _ _ _ _ hc.1 hs1
  obtain ⟨_, hg2, hcell2⟩ := setCell_spec _ _ _ _ _ hg1 hs2
  refine ⟨hg2, ?_⟩
  intro a ha c hc8
  rw [hcell2 a ha c hc8, hcell1 a ha c hc8, hc.2 a ha c hc8, hq]
  have hmem := mem_set_iff s.queenLocations hnd r hr ((a : Int), (c : Int)) sq (0, 0)
  by_cases e1 : (a : Int) = sq.1 ∧ (c : Int) = sq.2
  · have : ((a : Int), (c : Int)) = sq := Prod.ext e1.1 e1.2
    rw [if_pos e1, if_pos (hmem.mpr (Or.inl this))]
  · have hne : ((a : Int), (c : Int)) ≠ sq := fun e => e1 ⟨by rw [← e], by rw [← e]⟩
    rw [if_neg e1]
    by_cases e2 : (a : Int) = (s.queenLocations.getD r (0, 0)).1 ∧
        (c : Int) = (s.queenLocations.getD r (0, 0)).2
    · have : ((a : Int), (c : Int)) = s.queenLocations.getD r (0, 0) := Prod.ext e2.1 e2.2
      rw [if_pos e2, if_neg]
      rw [hmem]
      rintro (h1 | ⟨_, h2⟩)
      · exact hne h1
      · exact h2 this
    · have hne2 : ((a : Int), (c : Int)) ≠ s.queenLocations.getD r (0, 0) :=
        fun e => e2 ⟨by rw [← e], by rw [← e]⟩
      rw [if_neg e2]
      by_cases e3 : ((a : Int), (c : Int)) ∈ s.queenLocations
      · rw [if_pos e3, if_pos (hmem.mpr (Or.inr ⟨e3, hne2⟩))]
      · rw [if_neg e3, if_neg]
        rw [hmem]
        rintro (h1 | ⟨h1, _⟩)
        · exact hne h1
        · exact e3 h1

/-- C4: whenever `State::generateRandom` returns, the returned state has exactly 8 queen
coordinates, each with row and column in `[0,8)`, and the 8 coordinates are pairwise
distinct. -/
theorem generateRandom_valid (draws : List Nat) (s : State) (rest : List Nat)
    (h : generateRandom draws = .ok (s, rest)) :
    s.queenLocations.length = 8 ∧ (∀ p ∈ s.queenLocations, InRange p) ∧
      s.queenLocations.Nodup :=
  (generateRandom_spec draws s rest h).1

/-- Witness for C4: a run of `generateRandom` with one rejected draw. -/
theorem generateRandom_valid_witness :
    generateRandom knownSolutionDraws = .ok (knownSolution, []) ∧
    (knownSolution.queenLocations.length = 8 ∧
      (∀ p ∈ knownSolution.queenLocations, InRange p) ∧ knownSolution.queenLocations.Nodup) :=
  ⟨by decide, generateRandom_valid knownSolutionDraws knownSolution [] (by decide)⟩

/-- C5: from a state whose 8 queen coordinates are in range and pairwise distinct, every
state that `makeRandomMove` returns again has exactly 8 in-range, pairwise distinct queen
coordinates. -/
theorem makeRandomMove_preserves_valid (s t : State) (draws rest : List Nat)
    (hlen : s.queenLocations.length = 8) (hin : ∀ p ∈ s.queenLocations, InRange p)
    (hnd : s.queenLocations.Nodup) (h : s.makeRandomMove draws = .ok (t, rest)) :
    t.queenLocations.length = 8 ∧ (∀ p ∈ t.queenLocations, InRange p) ∧
      t.queenLocations.Nodup :=
  makeRandomMove_valid s t draws rest ⟨hlen, hin, hnd⟩ h

/-- Witness for C5: the move of `knownSolution` on `moveDraws`. -/
theorem makeRandomMove_preserves_valid_witness :
    (knownSolution.queenLocations.length = 8 ∧
      (∀ p ∈ knownSolution.queenLocations, InRange p) ∧ knownSolution.queenLocations.Nodup ∧
      knownSolution.makeRandomMove moveDraws = .ok (movedSolution, [])) ∧
    (movedSolution.queenLocations.length = 8 ∧
      (∀ p ∈ movedSolution.queenLocations, InRange p) ∧ movedSolution.queenLocations.Nodup) :=
  ⟨by decide, makeRandomMove_preserves_valid knownSolution movedSolution moveDraws []
    (by decide) (by decide) (by decide) (by decide)⟩

/-- C6: for a valid state `s` and every outcome `t` of `s.makeRandomMove()`, there is an
index `r` in `[0,8)` at which `t` holds a square `sq` that `s` does not hold there, every
other index holds the same coordinate in `t` as in `s` (so `r` is the only index that
differs), and `sq` is not occupied in `s`. -/
theorem makeRandomMove_moves_one (s t : State) (draws rest : List Nat) (hs : Valid s)
    (h : s.makeRandomMove draws = .ok (t, rest)) :
    t.queenLocations.length = 8 ∧
    ∃ (r : Nat) (sq : Square), r < 8 ∧
      t.queenLocations[r]? = some sq ∧ s.queenLocations[r]? ≠ some sq ∧
      (∀ k : Nat, k ≠ r → t.queenLocations[k]? = s.queenLocations[k]?) ∧
      InRange sq ∧ sq ∉ s.queenLocations := by
  obtain ⟨sq, r, board1, hin, hnot, hr8, hr, _, _, hq⟩ := makeRandomMove_inv s t draws rest h
  refine ⟨by rw [hq, List.length_set]; exact hs.1, r, sq, hr8, ?_, ?_, ?_, hin, hnot⟩
  · rw [hq, List.getElem?_set_self hr]
  · intro e
    exact hnot (List.getElem?_mem e)
  · intro k hk
    rw [hq, List.getElem?_set_ne (fun e => hk e.symm)]

/-- Witness for C6: the move of `knownSolution` on `moveDraws` changes index 5 only. -/
theorem makeRandomMove_moves_one_witness :
    (Valid knownSolution ∧ knownSolution.makeRandomMove moveDraws = .ok (movedSolution, [])) ∧
    (movedSolution.queenLocations.length = 8 ∧
    ∃ (r : Nat) (sq : Square), r < 8 ∧
      movedSolution.queenLocations[r]? = some sq ∧ knownSolution.queenLocations[r]? ≠ some sq ∧
      (∀ k : Nat, k ≠ r → movedSolution.queenLocations[k]? = knownSolution.queenLocations[k]?) ∧
      InRange sq ∧ sq ∉ knownSolution.queenLocations) :=
  ⟨by decide, makeRandomMove_moves_one knownSolution movedSolution moveDraws []
    (by decide) (by decide)⟩

/-- C7: occupancy consistency. Every state returned by `State::generateRandom` is
consistent, and so is every state returned by `makeRandomMove` from a state that is
consistent and has pairwise distinct queens: the grid is 8×8, `board[r][c] == 1` exactly
when `(r,c)` occurs in `queenLocations`, and every other cell is 0. -/
theorem occupancy_consistent :
    (∀ (draws : List Nat) (s : State) (rest : List Nat),
      generateRandom draws = .ok (s, rest) → Consistent s) ∧
    (∀ (s t : State) (draws rest : List Nat), Consistent s → s.queenLocations.Nodup →
      s.makeRandomMove draws = .ok (t, rest) → Consistent t) :=
  ⟨fun draws s rest h => (generateRandom_spec draws s rest h).2,
    fun s t draws rest hc hnd h => makeRandomMove_consistent s t draws rest hc hnd h⟩

/-- Witness for C7: both parts at concrete runs. -/
theorem occupancy_consistent_witness :
    (generateRandom antiDiagonalClashDraws = .ok (antiDiagonalClash, []) ∧
      Consistent antiDiagonalClash) ∧
    (Consistent knownSolution ∧ knownSolution.queenLocations.Nodup ∧
      knownSolution.makeRandomMove moveDraws = .ok (movedSolution, []) ∧
      Consistent movedSolution) :=
  ⟨⟨by decide, occupancy_consistent.1 antiDiagonalClashDraws antiDiagonalClash [] (by decide)⟩,
    by decide, by decide, by decide,
    occupancy_consistent.2 knownSolution movedSolution moveDraws [] (by decide) (by decide)
      (by decide)⟩

/-! ### Binary32 rounding -/

theorem log2Fuel_eq (fuel : Nat) : ∀ n : Nat, n ≤ fuel → log2Fuel fuel n = Nat.log2 n := by
  induction fuel with
  | zero =>
    intro n hn
    have : n = 0 := by omega
    subst this
    simp [log2Fuel]
  | succ f ih =>
    intro n hn
    rw [log2Fuel, Nat.log2]
    by_cases h2 : 2 ≤ n
    · rw [if_pos h2, if_pos h2, ih (n / 2) (by omega)]
    · rw [if_neg h2, if_neg h2]

theorem ilog2_spec (n : Nat) (hn : n ≠ 0) : 2 ^ ilog2 n ≤ n ∧ n < 2 ^ (ilog2 n + 1) := by
  have e : ilog2 n = Nat.log2 n := log2Fuel_eq n n (le_refl n)
  rw [e]
  exact ⟨Nat.log2_self_le hn, Nat.lt_log2_self⟩

/-- The binary exponent brackets a positive rational between two powers of two. -/
theorem binExp_spec (a : ℚ) (ha : 0 < a) :
    (2 : ℚ) ^ binExp a ≤ a ∧ a < (2 : ℚ) ^ (binExp a + 1) := by
  have hnum : 0 < a.num := Rat.num_pos.mpr ha
  have hn0 : a.num.toNat ≠ 0 := by omega
  have hd0 : a.den ≠ 0 := a.den_nz
  obtain ⟨hn1, hn2⟩ := ilog2_spec a.num.toNat hn0
  obtain ⟨hd1, hd2⟩ := ilog2_spec a.den hd0
  have hden : (0 : ℚ) < (a.den : ℚ) := by exact_mod_cast Nat.pos_of_ne_zero hd0
  have hcast : ((a.num.toNat : ℕ) : ℚ) = (a.num : ℚ) := by
    have : ((a.num.toNat : ℕ) : ℤ) = a.num := Int.toNat_of_nonneg hnum.le
    exact_mod_cast this
  have ha_eq : a = (a.num.toNat : ℚ) / (a.den : ℚ) := by
    rw [hcast]
    exact (Rat.num_div_den a).symm
  have hn1q : (2 : ℚ) ^ ilog2 a.num.toNat ≤ (a.num.toNat : ℚ) := by exact_mod_cast hn1
  have hn2q : (a.num.toNat : ℚ) < (2 : ℚ) ^ (ilog2 a.num.toNat + 1) := by exact_mod_cast hn2
  have hd1q : (2 : ℚ) ^ ilog2 a.den ≤ (a.den : ℚ) := by exact_mod_cast hd1
  have hd2q : (a.den : ℚ) < (2 : ℚ) ^ (ilog2 a.den + 1) := by exact_mod_cast hd2
  have h2 : (2 : ℚ) ≠ 0 := by norm_num
  have hp1 : (0 : ℚ) < (2 : ℚ) ^ ilog2 a.den := by positivity
  have hp2 : (0 : ℚ) < (2 : ℚ) ^ (ilog2 a.den + 1) := by positivity
  -- a < 2 ^ (e0 + 1)
  have hup : a < (2 : ℚ) ^ ((ilog2 a.num.toNat : ℤ) - (ilog2 a.den : ℤ) + 1) := by
    have e : (2 : ℚ) ^ ((ilog2 a.num.toNat : ℤ) - (ilog2 a.den : ℤ) + 1) =
        (2 : ℚ) ^ (ilog2 a.num.toNat + 1) / (2 : ℚ) ^ ilog2 a.den := by
      rw [show ((ilog2 a.num.toNat : ℤ) - (ilog2 a.den : ℤ) + 1) =
        ((ilog2 a.num.toNat + 1 : ℕ) : ℤ) - ((ilog2 a.den : ℕ) : ℤ) by push_cast; ring]
      rw [zpow_sub₀ h2, zpow_natCast, zpow_natCast]
    rw [e]
    refine lt_of_eq_of_lt ha_eq ?_
    rw [div_lt_div_iff hden hp1]
    calc (a.num.toNat : ℚ) * (2 : ℚ) ^ ilog2 a.den
        ≤ (a.num.toNat : ℚ) * (a.den : ℚ) := by
          apply mul_le_mul_of_nonneg_left hd1q
          positivity
      _ < (2 : ℚ) ^ (ilog2 a.num.toNat + 1) * (a.den : ℚ) := by
          apply mul_lt_mul_of_pos_right hn2q hden
  -- 2 ^ (e0 - 1) ≤ a
  have hlow : (2 : ℚ) ^ ((ilog2 a.num.toNat : ℤ) - (ilog2 a.den : ℤ) - 1) ≤ a := by
    have e : (2 : ℚ) ^ ((ilog2 a.num.toNat : ℤ) - (ilog2 a.den : ℤ) - 1) =
        (2 : ℚ) ^ ilog2 a.num.toNat / (2 : ℚ) ^ (ilog2 a.den + 1) := by
      rw [show ((ilog2 a.num.toNat : ℤ) - (ilog2 a.den : ℤ) - 1) =
        ((ilog2 a.num.toNat : ℕ) : ℤ) - ((ilog2 a.den + 1 : ℕ) : ℤ) by push_cast; ring]
      rw [zpow_sub₀ h2, zpow_natCast, zpow_natCast]
    rw [e]
    refine le_of_le_of_eq ?_ ha_eq.symm
    rw [div_le_div_iff hp2 hden]
    calc (2 : ℚ) ^ ilog2 a.num.toNat * (a.den : ℚ)
        ≤ (a.num.toNat : ℚ) * (a.den : ℚ) := by
          apply mul_le_mul_of_nonneg_right hn1q hden.le
      _ ≤ (a.num.toNat : ℚ) * (2 : ℚ) ^ (ilog2 a.den + 1) := by
          apply mul_le_mul_of_nonneg_left hd2q.le
          positivity
  unfold binExp
  split
  · rename_i hlt
    refine ⟨hlow, ?_⟩
    rw [sub_add_cancel]
    exact hlt
  · rename_i hge
    exact ⟨not_lt.mp hge, hup⟩

theorem roundHalfEven_near (m : ℚ) :
    (roundHalfEven m : ℚ) ≤ m + 1 / 2 ∧ m - 1 / 2 ≤ (roundHalfEven m : ℚ) := by
  have h1 : (⌊m⌋ : ℚ) ≤ m := Int.floor_le m
  have h2 : m < (⌊m⌋ : ℚ) + 1 := Int.lt_floor_add_one m
  unfold roundHalfEven
  split
  · constructor <;> linarith
  · split
    · push_cast
      constructor <;> linarith
    · rename_i h3 h4
      have h5 : m - ⌊m⌋ = 1 / 2 := le_antisymm (not_lt.mp h4) (not_lt.mp h3)
      split
      · constructor <;> linarith
      · push_cast
        constructor <;> linarith

theorem roundHalfEven_le (m : ℚ) (K : ℤ) (h : m ≤ (K : ℚ)) : roundHalfEven m ≤ K := by
  have hnear := (roundHalfEven_near m).1
  have : (roundHalfEven m : ℚ) < (K : ℚ) + 1 := by linarith
  have : roundHalfEven m < K + 1 := by exact_mod_cast this
  omega

theorem roundHalfEven_ge (m : ℚ) (K : ℤ) (h : (K : ℚ) ≤ m) : K ≤ roundHalfEven m := by
  have hnear := (roundHalfEven_near m).2
  have : (K : ℚ) - 1 < (roundHalfEven m : ℚ) := by linarith
  have : K - 1 < roundHalfEven m := by exact_mod_cast this
  omega

theorem ulpF32_pos (q : ℚ) : 0 < ulpF32 q := by
  unfold ulpF32
  positivity

theorem roundF32_of_pos (q : ℚ) (hq : 0 < q) :
    roundF32 q = (roundHalfEven (q / ulpF32 q) : ℚ) * ulpF32 q := by
  unfold roundF32
  rw [if_neg (ne_of_gt hq), if_pos hq]

/-- Rounding does not cross a power of two from below. -/
theorem roundF32_le_two_zpow (q : ℚ) (k : ℤ) (hk : -149 ≤ k) (h : q ≤ (2 : ℚ) ^ k) :
    roundF32 q ≤ (2 : ℚ) ^ k := by
  have hpos : (0 : ℚ) < (2 : ℚ) ^ k := by positivity
  rcases lt_trichotomy q 0 with hq | hq | hq
  · unfold roundF32
    rw [if_neg (ne_of_lt hq), if_neg (not_lt.mpr hq.le)]
    have hm : (0 : ℚ) ≤ -q / ulpF32 q := by
      apply div_nonneg _ (ulpF32_pos q).le
      linarith
    have h0 : (0 : ℤ) ≤ roundHalfEven (-q / ulpF32 q) := roundHalfEven_ge _ 0 (by simpa using hm)
    have h0q : (0 : ℚ) ≤ (roundHalfEven (-q / ulpF32 q) : ℚ) := by exact_mod_cast h0
    have := mul_nonneg h0q (ulpF32_pos q).le
    linarith
  · subst hq
    unfold roundF32
    rw [if_pos rfl]
    exact hpos.le
  · rw [roundF32_of_pos q hq]
    obtain ⟨hlow, _⟩ := binExp_spec q hq
    have habs : |q| = q := abs_of_pos hq
    have he : binExp q ≤ k := by
      have : (2 : ℚ) ^ binExp q ≤ (2 : ℚ) ^ k := le_trans hlow h
      exact (zpow_le_zpow_iff_right₀ (by norm_num : (1 : ℚ) < 2)).mp this
    have hE : max (binExp q) (-126) - 23 ≤ k := by
      rcases max_cases (binExp q) (-126) with ⟨e, _⟩ | ⟨e, _⟩ <;> rw [e] <;> omega
    have hulp : ulpF32 q = (2 : ℚ) ^ (max (binExp q) (-126) - 23) := by
      unfold ulpF32
      rw [habs]
    obtain ⟨n, hn⟩ : ∃ n : ℕ, k - (max (binExp q) (-126) - 23) = (n : ℤ) :=
      Int.eq_ofNat_of_zero_le (by omega)
    have hK : (2 : ℚ) ^ k = (((2 : ℤ) ^ n : ℤ) : ℚ) * ulpF32 q := by
      rw [hulp]
      push_cast
      rw [← zpow_natCast, ← hn, ← zpow_add₀ (by norm_num : (2 : ℚ) ≠ 0)]
      congr 1
      ring
    have hm : q / ulpF32 q ≤ (((2 : ℤ) ^ n : ℤ) : ℚ) := by
      rw [div_le_iff₀ (ulpF32_pos q), ← hK]
      exact h
    have hr := roundHalfEven_le _ _ hm
    have hrq : (roundHalfEven (q / ulpF32 q) : ℚ) ≤ (((2 : ℤ) ^ n : ℤ) : ℚ) := by exact_mod_cast hr
    rw [hK]
    exact mul_le_mul_of_nonneg_right hrq (ulpF32_pos q).le

theorem SA_body_better (RAND_MAX : Nat) (expInt : ℚ → ℤ) (deltaT : ℚ) (l : Loop)
    (neighbour : State) (draws1 : List Nat) (cn cc : Int)
    (hmove : l.current.makeRandomMove l.draws = .ok (neighbour, draws1))
    (hcn : cost neighbour = .ok cn) (hcc : cost l.current = .ok cc) (hlt : cn < cc) :
    SA_body RAND_MAX expInt deltaT l =
      .ok ⟨neighbour, roundF32 (l.T * deltaT), if cn = 0 then true else l.finalStateFound,
        draws1, l.steps + 1⟩ := by
  unfold SA_body
  simp only [hmove, hcn, hcc, chooseCurrent, if_pos hlt]

theorem SA_body_notBetter (RAND_MAX : Nat) (expInt : ℚ → ℤ) (deltaT : ℚ) (l : Loop)
    (neighbour : State) (draws1 draws2 : List Nat) (cn cc u : Int)
    (hmove : l.current.makeRandomMove l.draws = .ok (neighbour, draws1))
    (hcn : cost neighbour = .ok cn) (hcc : cost l.current = .ok cc) (hge : ¬ cn < cc)
    (hrand : rand draws1 = .ok (u, draws2)) :
    SA_body RAND_MAX expInt deltaT l =
      if acceptsNotBetter RAND_MAX expInt cc cn l.T u then
        .ok ⟨neighbour, roundF32 (l.T * deltaT), if cn = 0 then true else l.finalStateFound,
          draws2, l.steps + 1⟩
      else
        .ok ⟨l.current, roundF32 (l.T * deltaT), if cc = 0 then true else l.finalStateFound,
          draws2, l.steps + 1⟩ := by
  unfold SA_body
  simp only [hmove, hcn, hcc, chooseCurrent, if_neg hge, hrand]
  cases hacc : acceptsNotBetter RAND_MAX expInt cc cn l.T u <;> simp [hcn, hcc]

theorem SA_body_spec (RAND_MAX : Nat) (expInt : ℚ → ℤ) (deltaT : ℚ) (l l1 : Loop)
    (h : SA_body RAND_MAX expInt deltaT l = .ok l1) :
    l1.T = roundF32 (l.T * deltaT) ∧ l1.steps = l.steps + 1 ∧
      (l1.finalStateFound = true → l.finalStateFound = true ∨ cost l1.current = .ok 0) := by
  unfold SA_body at h
  split at h
  · cases h
  · split at h
    · cases h
    · split at h
      · cases h
      · split at h
        · cases h
        · split at h
          · cases h
          · rename_i costFinal hfinal
            cases h
            refine ⟨rfl, rfl, ?_⟩
            simp only
            intro hf
            by_cases hz : costFinal = 0
            · right; rw [hfinal, hz]
            · left; simpa [hz] using hf

/-- The test of the `else` branch when `int p` is 0: no draw passes it. -/
theorem acceptsNotBetter_of_zero (RAND_MAX : Nat) (expInt : ℚ → ℤ) (cc cn : Int) (T : ℚ)
    (u : Int) (hp : expInt (((cc - cn : Int) : ℚ) / T) = 0) (hu : 0 ≤ u) :
    acceptsNotBetter RAND_MAX expInt cc cn T u = false := by
  unfold acceptsNotBetter
  simp only [hp, Int.cast_zero, gt_iff_lt, decide_eq_false_iff_not, not_lt]
  positivity

/-- The test of the `else` branch when `int p` is 1: every draw `u < 1` passes it. -/
theorem acceptsNotBetter_of_one (RAND_MAX : Nat) (expInt : ℚ → ℤ) (cc cn : Int) (T : ℚ)
    (u : Int) (hp : expInt (((cc - cn : Int) : ℚ) / T) = 1) :
    acceptsNotBetter RAND_MAX expInt cc cn T u = true ↔ (u : ℚ) / (RAND_MAX : ℚ) < 1 := by
  unfold acceptsNotBetter
  simp only [hp, Int.cast_one, gt_iff_lt, decide_eq_true_eq]

theorem floor_exp_neg (x : ℝ) (hx : x < 0) : ⌊Real.exp x⌋ = 0 := by
  rw [Int.floor_eq_iff]
  constructor
  · simpa using (Real.exp_pos x).le
  · simpa using Real.exp_lt_one_iff.mpr hx

/-- The exponential of `−a` is at most `1 / (1 + a)`. -/
theorem exp_neg_le (a : ℝ) (ha : 0 ≤ a) : Real.exp (-a) ≤ 1 / (1 + a) := by
  have h1 : a + 1 ≤ Real.exp a := Real.add_one_le_exp a
  have hpos : 0 < 1 + a := by linarith
  rw [Real.exp_neg, ← one_div]
  apply one_div_le_one_div_of_le hpos
  linarith

theorem libm_zero (expInt : ℚ → ℤ) (hexp : LibmExp expInt) : expInt 0 = 1 := by
  apply (hexp 0 (le_refl 0)).1
  simp only [Rat.cast_zero, Real.exp_zero]
  have : (0 : ℝ) < (2 : ℝ) ^ (-60 : ℤ) := by positivity
  linarith

/-- A quotient within `2⁻⁶⁰` of 0 gives `p = 1`. -/
theorem libm_tiny (expInt : ℚ → ℤ) (hexp : LibmExp expInt) (x : ℚ) (h0 : x ≤ 0)
    (h1 : -(2 : ℚ) ^ (-60 : ℤ) ≤ x) : expInt x = 1 := by
  apply (hexp x h0).1
  have hx : -(2 : ℝ) ^ (-60 : ℤ) ≤ (x : ℝ) := by
    have : ((-(2 : ℚ) ^ (-60 : ℤ) : ℚ) : ℝ) ≤ (x : ℝ) := Rat.cast_le.mpr h1
    simpa using this
  have := Real.add_one_le_exp (x : ℝ)
  linarith

/-- A quotient at most `−2⁻²²` gives `p = 0`. -/
theorem libm_far (expInt : ℚ → ℤ) (hexp : LibmExp expInt) (x : ℚ)
    (h1 : x ≤ -(2 : ℚ) ^ (-22 : ℤ)) : expInt x = 0 := by
  have hneg : (0 : ℚ) < (2 : ℚ) ^ (-22 : ℤ) := by positivity
  apply (hexp x (by linarith)).2
  have hx : (x : ℝ) ≤ -(2 : ℝ) ^ (-22 : ℤ) := by
    have : (x : ℝ) ≤ ((-(2 : ℚ) ^ (-22 : ℤ) : ℚ) : ℝ) := Rat.cast_le.mpr h1
    simpa using this
  have hmono : Real.exp (x : ℝ) ≤ Real.exp (-(2 : ℝ) ^ (-22 : ℤ)) := Real.exp_le_exp.mpr hx
  have hle := exp_neg_le ((2 : ℝ) ^ (-22 : ℤ)) (by positivity)
  have hnum : 1 / (1 + (2 : ℝ) ^ (-22 : ℤ)) ≤ 1 - (2 : ℝ) ^ (-23 : ℤ) := by
    norm_num
  exact le_trans hmono (le_trans hle hnum)

/-- With `2 < T ≤ 2²²` and a strictly worse neighbour, `int p = exp(c / T)` is 0. -/
theorem libm_worse (expInt : ℚ → ℤ) (hexp : LibmExp expInt) (cc cn : Int) (T : ℚ)
    (hc : cc < cn) (hT : 2 < T) (hT2 : T ≤ (2 : ℚ) ^ (22 : ℤ)) :
    expInt (((cc - cn : Int) : ℚ) / T) = 0 := by
  apply libm_far expInt hexp
  have hTpos : (0 : ℚ) < T := by linarith
  have hc1 : ((cc - cn : Int) : ℚ) ≤ -1 := by
    have : cc - cn ≤ -1 := by omega
    exact_mod_cast this
  rw [div_le_iff₀ hTpos]
  have h22 : (2 : ℚ) ^ (-22 : ℤ) * T ≤ 1 := by
    have : (2 : ℚ) ^ (-22 : ℤ) * T ≤ (2 : ℚ) ^ (-22 : ℤ) * (2 : ℚ) ^ (22 : ℤ) :=
      mul_le_mul_of_nonneg_left hT2 (by positivity)
    have e : (2 : ℚ) ^ (-22 : ℤ) * (2 : ℚ) ^ (22 : ℤ) = 1 := by norm_num
    linarith
  linarith

theorem sampleExpInt_libm : LibmExp sampleExpInt := by
  intro x hx
  unfold sampleExpInt
  constructor
  · intro h
    rw [if_neg]
    intro hlt
    have hxr : (x : ℝ) ≤ -(1 / 2 ^ 59 : ℝ) := by
      have : (x : ℝ) ≤ ((-(1 / 2 ^ 59) : ℚ) : ℝ) := Rat.cast_le.mpr hlt.le
      simpa using this
    have hmono : Real.exp (x : ℝ) ≤ Real.exp (-(1 / 2 ^ 59 : ℝ)) := Real.exp_le_exp.mpr hxr
    have hle := exp_neg_le (1 / 2 ^ 59 : ℝ) (by positivity)
    have hnum : 1 / (1 + (1 / 2 ^ 59 : ℝ)) < 1 - (2 : ℝ) ^ (-60 : ℤ) := by
      norm_num
    exact absurd h (not_le.mpr (lt_of_le_of_lt (le_trans hmono hle) hnum))
  · intro h
    rw [if_pos]
    by_contra hge
    have hxr : -(1 / 2 ^ 59 : ℝ) ≤ (x : ℝ) := by
      have : ((-(1 / 2 ^ 59) : ℚ) : ℝ) ≤ (x : ℝ) := Rat.cast_le.mpr (not_lt.mp hge)
      simpa using this
    have hexp1 := Real.add_one_le_exp (x : ℝ)
    have hnum : 1 - (2 : ℝ) ^ (-23 : ℤ) < 1 - (1 / 2 ^ 59 : ℝ) := by
      norm_num
    have h3 : 1 - (1 / 2 ^ 59 : ℝ) ≤ (x : ℝ) + 1 := by linarith
    exact absurd (le_trans h3 (le_trans hexp1 h)) (not_le.mpr hnum)

/-- Every returning pass of the loop body, by cases on the branch taken. -/
theorem SA_body_cases (RAND_MAX : Nat) (expInt : ℚ → ℤ) (deltaT : ℚ) (l l1 : Loop)
    (h : SA_body RAND_MAX expInt deltaT l = .ok l1) :
    ∃ (neighbour : State) (draws1 : List Nat) (cn cc : Int),
      l.current.makeRandomMove l.draws = .ok (neighbour, draws1) ∧
      cost neighbour = .ok cn ∧ cost l.current = .ok cc ∧
      ((cn < cc ∧ l1.current = neighbour) ∨
        (¬ cn < cc ∧ ∃ (u : Int) (draws2 : List Nat), rand draws1 = .ok (u, draws2) ∧
          l1.current = if acceptsNotBetter RAND_MAX expInt cc cn l.T u then neighbour
            else l.current)) := by
  unfold SA_body at h
  split at h
  · cases h
  · rename_i neighbour draws1 hmove
    split at h
    · cases h
    · rename_i cn hcn
      split at h
      · cases h
      · rename_i cc hcc
        refine ⟨neighbour, draws1, cn, cc, hmove, hcn, hcc, ?_⟩
        by_cases hlt : cn < cc
        · left
          simp only [chooseCurrent, if_pos hlt] at h
          split at h
          · cases h
          · cases h
            exact ⟨hlt, rfl⟩
        · right
          refine ⟨hlt, ?_⟩
          simp only [chooseCurrent, if_neg hlt] at h
          cases hr : rand draws1 with
          | error e => simp [hr] at h
          | ok v =>
            obtain ⟨u, draws2⟩ := v
            refine ⟨u, draws2, rfl, ?_⟩
            simp only [hr] at h
            cases hacc : acceptsNotBetter RAND_MAX expInt cc cn l.T u
            · simp only [hacc, Bool.false_eq_true, if_false] at h
              split at h
              · cases h
              · cases h
                simp
            · simp only [hacc, if_true] at h
              split at h
              · cases h
              · cases h
                simp

/-- Invariants of the loop of `SA`: a property kept by every pass that the guard lets
through holds at the exit, where the guard is false. -/
theorem SA_loop_invariant (RAND_MAX : Nat) (expInt : ℚ → ℤ) (deltaT : ℚ) (Inv : Loop → Prop)
    (hstep : ∀ l l1, Inv l → l.T > 2 → l.finalStateFound = false →
      SA_body RAND_MAX expInt deltaT l = .ok l1 → Inv l1) :
    ∀ (fuel : Nat) (l l1 : Loop), Inv l →
      SA_loop RAND_MAX expInt deltaT fuel l = some (.ok l1) →
      Inv l1 ∧ ¬ (l1.T > 2 ∧ l1.finalStateFound = false) := by
  intro fuel
  induction fuel with
  | zero =>
    intro l l1 hinv h
    unfold SA_loop at h
    by_cases hg : l.T > 2 ∧ l.finalStateFound = false
    · rw [if_pos hg] at h
      cases h
    · rw [if_neg hg] at h
      cases h
      exact ⟨hinv, hg⟩
  | succ fuel ih =>
    intro l l1 hinv h
    unfold SA_loop at h
    by_cases hg : l.T > 2 ∧ l.finalStateFound = false
    · rw [if_pos hg] at h
      simp only at h
      cases hb : SA_body RAND_MAX expInt deltaT l with
      | error e =>
        rw [hb] at h
        cases h
      | ok l2 =>
        rw [hb] at h
        exact ih l2 l1 (hstep l l2 hinv hg.1 hg.2 hb) h
    · rw [if_neg hg] at h
      cases h
      exact ⟨hinv, hg⟩

theorem crowded_nonneg (k : Int) : 0 ≤ crowded k := by
  unfold crowded
  split <;> omega

theorem cost_nonneg (s : State) (c : Int) (h : cost s = .ok c) : 0 ≤ c := by
  unfold cost at h
  split at h
  · cases h
  · split at h
    · cases h
    · rename_i rowCount columnCount _ _ negDiag posDiag _
      cases h
      simp only [addCrowded_eq, zero_add]
      have hs : ∀ v : List Int, 0 ≤ (v.map crowded).sum := fun v =>
        List.sum_nonneg (by
          intro x hx
          obtain ⟨k, _, rfl⟩ := List.mem_map.mp hx
          exact crowded_nonneg k)
      linarith [hs rowCount, hs columnCount, hs negDiag, hs posDiag]

/-- A pass of the loop keeps the board-state invariant. -/
theorem SA_body_valid (RAND_MAX : Nat) (expInt : ℚ → ℤ) (deltaT : ℚ) (l l1 : Loop)
    (hv : Valid l.current) (hc : Consistent l.current)
    (h : SA_body RAND_MAX expInt deltaT l = .ok l1) :
    Valid l1.current ∧ Consistent l1.current := by
  obtain ⟨nb, d1, cn, cc, hmove, _, _, hcase⟩ := SA_body_cases _ _ _ _ _ h
  have hnb : Valid nb ∧ Consistent nb :=
    ⟨makeRandomMove_valid _ _ _ _ hv hmove, makeRandomMove_consistent _ _ _ _ hc hv.2.2 hmove⟩
  rcases hcase with ⟨_, hcur⟩ | ⟨_, u, d2, _, hcur⟩
  · rw [hcur]; exact hnb
  · rw [hcur]
    split
    · exact hnb
    · exact ⟨hv, hc⟩

/-! ### Cooling -/

theorem SA_loop_exit (RAND_MAX : Nat) (expInt : ℚ → ℤ) (deltaT : ℚ) (fuel : Nat) (l : Loop)
    (hg : ¬ (l.T > 2 ∧ l.finalStateFound = false)) :
    SA_loop RAND_MAX expInt deltaT fuel l = some (.ok l) := by
  unfold SA_loop
  rw [if_neg hg]

theorem SA_loop_step (RAND_MAX : Nat) (expInt : ℚ → ℤ) (deltaT : ℚ) (fuel : Nat)
    (l l1 : Loop) (hT : l.T > 2) (hf : l.finalStateFound = false)
    (hb : SA_body RAND_MAX expInt deltaT l = .ok l1) :
    SA_loop RAND_MAX expInt deltaT (fuel + 1) l = SA_loop RAND_MAX expInt deltaT fuel l1 := by
  rw [SA_loop, if_pos ⟨hT, hf⟩]
  simp only [hb]

/-- A pass at `2 < T ≤ 2²²` that proposes a strictly worse neighbour keeps the current
state, whatever the library's `exp` within `LibmExp`. -/
theorem SA_body_rejects (RAND_MAX : Nat) (expInt : ℚ → ℤ) (hexp : LibmExp expInt)
    (deltaT : ℚ) (l : Loop) (neighbour : State) (draws1 draws2 : List Nat) (cn cc u : Int)
    (hT : l.T > 2) (hT2 : l.T ≤ (2 : ℚ) ^ (22 : ℤ))
    (hmove : l.current.makeRandomMove l.draws = .ok (neighbour, draws1))
    (hcn : cost neighbour = .ok cn) (hcc : cost l.current = .ok cc) (hlt : cc < cn)
    (hrand : rand draws1 = .ok (u, draws2)) :
    SA_body RAND_MAX expInt deltaT l =
      .ok ⟨l.current, roundF32 (l.T * deltaT), if cc = 0 then true else l.finalStateFound,
        draws2, l.steps + 1⟩ := by
  have hacc := acceptsNotBetter_of_zero RAND_MAX expInt cc cn l.T u
    (libm_worse expInt hexp cc cn l.T hlt hT hT2) (rand_nonneg _ _ _ hrand)
  rw [SA_body_notBetter RAND_MAX expInt deltaT l neighbour draws1 draws2 cn cc u hmove hcn
    hcc (by omega) hrand, hacc]
  rfl

/-- C8: in one pass of the loop of `SA`, if the neighbour has strictly lower cost than the
current state, the neighbour becomes the current state: for every temperature, every
`expInt` and `RAND_MAX`, and without reading a draw (the draws left are those that
`makeRandomMove` left). -/
theorem SA_accepts_better (RAND_MAX : Nat) (expInt : ℚ → ℤ) (deltaT : ℚ) (l : Loop)
    (neighbour : State) (draws1 : List Nat) (costNeighbour costCurrent : Int)
    (hmove : l.current.makeRandomMove l.draws = .ok (neighbour, draws1))
    (hcn : cost neighbour = .ok costNeighbour) (hcc : cost l.current = .ok costCurrent)
    (hlt : costNeighbour < costCurrent) :
    ∃ l1, SA_body RAND_MAX expInt deltaT l = .ok l1 ∧ l1.current = neighbour ∧
      l1.draws = draws1 ∧ l1.T = roundF32 (l.T * deltaT) :=
  ⟨_, SA_body_better RAND_MAX expInt deltaT l neighbour draws1 costNeighbour costCurrent
    hmove hcn hcc hlt, rfl, rfl, rfl⟩

/-- Witness for C8: from `movedSolution` (cost 8) the move back to `knownSolution`
(cost 0) is taken. -/
theorem SA_accepts_better_witness :
    (movedSolution.makeRandomMove backDraws = .ok (knownSolution, []) ∧
      cost knownSolution = .ok 0 ∧ cost movedSolution = .ok 8 ∧ (0 : Int) < 8) ∧
    ∃ l1, SA_body 2147483647 sampleExpInt deltaT0999 ⟨movedSolution, 100, false, backDraws, 0⟩
        = .ok l1 ∧ l1.current = knownSolution ∧ l1.draws = [] ∧
        l1.T = roundF32 (100 * deltaT0999) :=
  ⟨by decide, SA_accepts_better 2147483647 sampleExpInt deltaT0999
    ⟨movedSolution, 100, false, backDraws, 0⟩ knownSolution [] 0 8
    (by decide) (by decide) (by decide) (by decide)⟩

/-- C9, evaluated on the code with the exact exponential: at temperature 100, with
`knownSolution` (cost 0) as current state, `movedSolution` (cost 8) as neighbour and the
draw 1073741823 out of `RAND_MAX` = 2147483647, the Metropolis test exp(Δ/T) > u holds
(exp(−8/100) > 1/2 > u), and `SA` keeps the current state: `int p = exp(c / T)` is 0. The
same pass keeps the current state for every `expInt` within `LibmExp`. -/
theorem SA_rejects_where_metropolis_accepts :
    knownSolution.makeRandomMove (moveDraws ++ [1073741823]) =
      .ok (movedSolution, [1073741823]) ∧
    cost knownSolution = .ok 0 ∧ cost movedSolution = .ok 8 ∧
    Real.exp ((((0 : Int) - 8 : Int) : ℝ) / ((100 : ℚ) : ℝ)) >
      ((1073741823 : Int) : ℝ) / ((2147483647 : Nat) : ℝ) ∧
    acceptsNotBetter 2147483647 (fun x : ℚ => ⌊Real.exp (x : ℝ)⌋) 0 8 100 1073741823 = false ∧
    SA_body 2147483647 (fun x : ℚ => ⌊Real.exp (x : ℝ)⌋) deltaT0999
        ⟨knownSolution, 100, false, moveDraws ++ [1073741823], 0⟩ =
      .ok ⟨knownSolution, roundF32 (100 * deltaT0999), true, [], 1⟩ ∧
    (∀ expInt : ℚ → ℤ, LibmExp expInt →
      SA_body 2147483647 expInt deltaT0999
          ⟨knownSolution, 100, false, moveDraws ++ [1073741823], 0⟩ =
        .ok ⟨knownSolution, roundF32 (100 * deltaT0999), true, [], 1⟩) := by
  have hp : (fun x : ℚ => ⌊Real.exp (x : ℝ)⌋) ((((0 : Int) - 8 : Int) : ℚ) / 100) = 0 := by
    apply floor_exp_neg
    norm_num
  have hacc : acceptsNotBetter 2147483647 (fun x : ℚ => ⌊Real.exp (x : ℝ)⌋) 0 8 100
      1073741823 = false :=
    acceptsNotBetter_of_zero _ _ 0 8 100 1073741823 hp (by decide)
  refine ⟨by decide, by decide, by decide, ?_, hacc, ?_, ?_⟩
  · have h := Real.add_one_le_exp ((((0 : Int) - 8 : Int) : ℝ) / ((100 : ℚ) : ℝ))
    have h2 : ((1073741823 : Int) : ℝ) / ((2147483647 : Nat) : ℝ) <
        (((0 : Int) - 8 : Int) : ℝ) / ((100 : ℚ) : ℝ) + 1 := by
      norm_num
    exact lt_of_lt_of_le h2 h
  · rw [SA_body_notBetter 2147483647 _ deltaT0999 ⟨knownSolution, 100, false,
      moveDraws ++ [1073741823], 0⟩ movedSolution [1073741823] [] 8 0 1073741823
      (by decide) (by decide) (by decide) (by decide) (by decide)]
    simp only [hacc]
    rfl
  · intro expInt hexp
    rw [SA_body_rejects 2147483647 expInt hexp deltaT0999 ⟨knownSolution, 100, false,
      moveDraws ++ [1073741823], 0⟩ movedSolution [1073741823] [] 8 0 1073741823
      (by norm_num) (by norm_num) (by decide) (by decide) (by decide) (by decide)
      (by decide)]
    rfl

/-- A pass whose neighbour is not strictly better and whose `int p` is 1 takes the
neighbour on every draw `u < 1`. -/
theorem SA_body_accepts (RAND_MAX : Nat) (expInt : ℚ → ℤ) (deltaT : ℚ) (l : Loop)
    (neighbour : State) (draws1 draws2 : List Nat) (cn cc u : Int)
    (hmove : l.current.makeRandomMove l.draws = .ok (neighbour, draws1))
    (hcn : cost neighbour = .ok cn) (hcc : cost l.current = .ok cc) (hge : cc ≤ cn)
    (hrand : rand draws1 = .ok (u, draws2))
    (hp : expInt (((cc - cn : Int) : ℚ) / l.T) = 1) (hu : (u : ℚ) / (RAND_MAX : ℚ) < 1) :
    SA_body RAND_MAX expInt deltaT l =
      .ok ⟨neighbour, roundF32 (l.T * deltaT), if cn = 0 then true else l.finalStateFound,
        draws2, l.steps + 1⟩ := by
  have hacc := (acceptsNotBetter_of_one RAND_MAX expInt cc cn l.T u hp).mpr hu
  rw [SA_body_notBetter RAND_MAX expInt deltaT l neighbour draws1 draws2 cn cc u hmove hcn
    hcc (by omega) hrand, hacc]
  rfl

/-- With a strictly worse neighbour and `T ≥ 2⁶⁰ · (cost(neighbour) − cost(current))`,
`int p = exp(c / T)` is 1. -/
theorem libm_hot (expInt : ℚ → ℤ) (hexp : LibmExp expInt) (cc cn : Int) (T : ℚ)
    (hc : cc ≤ cn) (hT : 0 < T) (hT2 : (2 : ℚ) ^ (60 : ℤ) * ((cn - cc : Int) : ℚ) ≤ T) :
    expInt (((cc - cn : Int) : ℚ) / T) = 1 := by
  have hd : ((cn - cc : Int) : ℚ) = -((cc - cn : Int) : ℚ) := by push_cast; ring
  have hneg : ((cc - cn : Int) : ℚ) ≤ 0 := by
    have : cc - cn ≤ 0 := by omega
    exact_mod_cast this
  apply libm_tiny expInt hexp
  · exact div_nonpos_of_nonpos_of_nonneg hneg hT.le
  · rw [le_div_iff₀ hT]
    rw [hd] at hT2
    have e : (2 : ℚ) ^ (-60 : ℤ) * (2 : ℚ) ^ (60 : ℤ) = 1 := by norm_num
    have h1 : (2 : ℚ) ^ (-60 : ℤ) * ((2 : ℚ) ^ (60 : ℤ) * -((cc - cn : Int) : ℚ)) ≤
        (2 : ℚ) ^ (-60 : ℤ) * T := mul_le_mul_of_nonneg_left hT2 (by positivity)
    rw [← mul_assoc, e, one_mul] at h1
    have h2 : -(2 : ℚ) ^ (-60 : ℤ) * T = -((2 : ℚ) ^ (-60 : ℤ) * T) := by ring
    rw [h2]
    linarith

/-- Within `LibmExp`, a pass of the loop with `2 < T ≤ 2²²` never raises the cost of the
current state. -/
theorem SA_body_cost_le (RAND_MAX : Nat) (expInt : ℚ → ℤ) (hexp : LibmExp expInt)
    (deltaT : ℚ) (l l1 : Loop) (hT : l.T > 2) (hT2 : l.T ≤ (2 : ℚ) ^ (22 : ℤ))
    (h : SA_body RAND_MAX expInt deltaT l = .ok l1) :
    ∃ cc c1 : Int, cost l.current = .ok cc ∧ cost l1.current = .ok c1 ∧ c1 ≤ cc := by
  obtain ⟨nb, d1, cn, cc, hmove, hcn, hcc, hcase⟩ := SA_body_cases _ _ _ _ _ h
  rcases hcase with ⟨hlt, hcur⟩ | ⟨hge, u, d2, hrand, hcur⟩
  · exact ⟨cc, cn, hcc, by rw [hcur]; exact hcn, le_of_lt hlt⟩
  · by_cases heq : cn = cc
    · refine ⟨cc, cc, hcc, ?_, le_refl _⟩
      rw [hcur]
      split
      · rw [hcn, heq]
      · exact hcc
    · have hlt : cc < cn := by omega
      have hu := rand_nonneg _ _ _ hrand
      have hacc := acceptsNotBetter_of_zero RAND_MAX expInt cc cn l.T u
        (libm_worse expInt hexp cc cn l.T hlt hT hT2) hu
      refine ⟨cc, cc, hcc, ?_, le_refl _⟩
      rw [hcur, hacc]
      exact hcc

/-- C11: whenever `SA` returns, the returned state has cost 0 or the final temperature,
which is the `float` `cooled Tparam deltaT steps` after the last cooling step, is at most
2; `SA` never returns with `T > 2` and a current state of non-zero cost, after any number
of passes. The flag `finalStateFound` is only ever set on a current state of cost 0. -/
theorem SA_exit_condition (RAND_MAX : Nat) (expInt : ℚ → ℤ) (fuel : Nat) (s : State)
    (Tparam deltaT : ℚ) (draws : List Nat) (l : Loop)
    (h : SA RAND_MAX expInt fuel s Tparam deltaT draws = some (.ok l)) :
    (cost l.current = .ok 0 ∨ l.T ≤ 2) ∧
    ¬ (l.T > 2 ∧ cost l.current ≠ .ok 0) ∧
    l.T = cooled Tparam deltaT l.steps ∧
    (l.finalStateFound = true → cost l.current = .ok 0) := by
  have hinv := SA_loop_invariant RAND_MAX expInt deltaT
    (fun l => (l.finalStateFound = true → cost l.current = .ok 0) ∧
      l.T = cooled Tparam deltaT l.steps)
    (by
      intro l0 l1 hi _ hf hb
      obtain ⟨hT1, hs1, hf1⟩ := SA_body_spec _ _ _ _ _ hb
      refine ⟨?_, by rw [hT1, hs1, hi.2]; rfl⟩
      intro hfin
      rcases hf1 hfin with h2 | h2
      · rw [hf] at h2; cases h2
      · exact h2)
    fuel ⟨s, Tparam, false, draws, 0⟩ l ⟨(by intro h0; cases h0), rfl⟩ h
  obtain ⟨⟨hfin, hT⟩, hguard⟩ := hinv
  have hmain : cost l.current = .ok 0 ∨ l.T ≤ 2 := by
    by_cases h2 : l.T > 2
    · left
      cases hf : l.finalStateFound
      · exact absurd ⟨h2, hf⟩ hguard
      · exact hfin hf
    · right
      exact not_lt.mp h2
  refine ⟨hmain, ?_, hT, hfin⟩
  rintro ⟨h2, hne⟩
  rcases hmain with h3 | h3
  · exact hne h3
  · exact absurd h2 (not_lt.mpr h3)

/-- Witness for C11: the run from `movedSolution` that moves back to `knownSolution`
stops after one pass on a state of cost 0, at the `float` temperature 99.9000015… > 2. -/
theorem SA_exit_condition_witness :
    SA 2147483647 (fun _ => 0) 1 movedSolution 100 deltaT0999 backDraws =
      some (.ok oneBackExit) ∧
    ((cost oneBackExit.current = .ok 0 ∨ oneBackExit.T ≤ 2) ∧
      ¬ (oneBackExit.T > 2 ∧ cost oneBackExit.current ≠ .ok 0) ∧
      oneBackExit.T = cooled 100 deltaT0999 oneBackExit.steps ∧
      (oneBackExit.finalStateFound = true → cost oneBackExit.current = .ok 0)) :=
  ⟨by decide!, SA_exit_condition 2147483647 (fun _ => 0) 1 movedSolution 100 deltaT0999
    backDraws oneBackExit (by decide!)⟩

/-- C13 refuted on the code: at the `float` temperature `T = 2⁷⁰ > 2`, with
`knownSolution` (cost 0) as current state and `movedSolution` (cost 8) as neighbour, the
quotient `c / T` is `−2⁻⁶⁷`, whose exponential every `exp` within `LibmExp` (the `float`
one and the `double` one) returns as 1: `int p` is 1, not 0, and on the draw 0 the
strictly worse neighbour becomes the current state. -/
theorem SA_accepts_worse_when_hot :
    ((2 : ℚ) ^ (70 : ℤ) > 2 ∧ roundF32 ((2 : ℚ) ^ (70 : ℤ)) = (2 : ℚ) ^ (70 : ℤ) ∧
      knownSolution.makeRandomMove (moveDraws ++ [0]) = .ok (movedSolution, [0]) ∧
      cost knownSolution = .ok 0 ∧ cost movedSolution = .ok 8 ∧ (0 : Int) < 8) ∧
    ∀ (RAND_MAX : Nat) (expInt : ℚ → ℤ), LibmExp expInt →
      expInt ((((0 : Int) - 8 : Int) : ℚ) / (2 : ℚ) ^ (70 : ℤ)) = 1 ∧
      acceptsNotBetter RAND_MAX expInt 0 8 ((2 : ℚ) ^ (70 : ℤ)) 0 = true ∧
      SA_body RAND_MAX expInt deltaT0999
          ⟨knownSolution, (2 : ℚ) ^ (70 : ℤ), false, moveDraws ++ [0], 0⟩ =
        .ok ⟨movedSolution, roundF32 ((2 : ℚ) ^ (70 : ℤ) * deltaT0999), false, [], 1⟩ := by
  refine ⟨⟨by norm_num, by decide!, by decide, by decide, by decide, by decide⟩, ?_⟩
  intro RAND_MAX expInt hexp
  have hp : expInt ((((0 : Int) - 8 : Int) : ℚ) / (2 : ℚ) ^ (70 : ℤ)) = 1 :=
    libm_hot expInt hexp 0 8 ((2 : ℚ) ^ (70 : ℤ)) (by decide) (by positivity) (by norm_num)
  have hu : ((0 : Int) : ℚ) / (RAND_MAX : ℚ) < 1 := by simp
  refine ⟨hp, (acceptsNotBetter_of_one RAND_MAX expInt 0 8 _ 0 hp).mpr hu, ?_⟩
  rw [SA_body_accepts RAND_MAX expInt deltaT0999
    ⟨knownSolution, (2 : ℚ) ^ (70 : ℤ), false, moveDraws ++ [0], 0⟩ movedSolution [0] [] 8 0 0
    (by decide) (by decide) (by decide) (by decide) (by decide) hp hu]
  rfl

/-- C13, amended to the `exp` of the library (any `expInt` within `LibmExp`): in every
pass of the loop with `T > 2`, when the neighbour costs strictly more than the current
state and `T ≤ 2²²`, `int p = exp(c / T)` is 0 and the current state is kept, whatever the
draw; when the costs are equal, `p` is 1 and the neighbour becomes the current state for
every draw `u = rand() / RAND_MAX < 1`; and when the neighbour costs strictly more but
`T ≥ 2⁶⁰ · (cost(neighbour) − cost(current))`, `p` is 1 as well and the worse neighbour
becomes the current state for every draw `u < 1`. -/
theorem SA_truncated_acceptance (RAND_MAX : Nat) (expInt : ℚ → ℤ) (deltaT : ℚ) (l : Loop)
    (neighbour : State) (draws1 draws2 : List Nat) (cn cc u : Int)
    (hexp : LibmExp expInt) (hT : l.T > 2)
    (hmove : l.current.makeRandomMove l.draws = .ok (neighbour, draws1))
    (hcn : cost neighbour = .ok cn) (hcc : cost l.current = .ok cc)
    (hrand : rand draws1 = .ok (u, draws2)) :
    (cc < cn → l.T ≤ (2 : ℚ) ^ (22 : ℤ) →
      expInt (((cc - cn : Int) : ℚ) / l.T) = 0 ∧
      acceptsNotBetter RAND_MAX expInt cc cn l.T u = false ∧
      SA_body RAND_MAX expInt deltaT l =
        .ok ⟨l.current, roundF32 (l.T * deltaT),
          if cc = 0 then true else l.finalStateFound, draws2, l.steps + 1⟩) ∧
    (cc = cn →
      expInt (((cc - cn : Int) : ℚ) / l.T) = 1 ∧
      ((u : ℚ) / (RAND_MAX : ℚ) < 1 →
        acceptsNotBetter RAND_MAX expInt cc cn l.T u = true ∧
        SA_body RAND_MAX expInt deltaT l =
          .ok ⟨neighbour, roundF32 (l.T * deltaT),
            if cn = 0 then true else l.finalStateFound, draws2, l.steps + 1⟩)) ∧
    (cc < cn → (2 : ℚ) ^ (60 : ℤ) * ((cn - cc : Int) : ℚ) ≤ l.T →
      expInt (((cc - cn : Int) : ℚ) / l.T) = 1 ∧
      ((u : ℚ) / (RAND_MAX : ℚ) < 1 →
        acceptsNotBetter RAND_MAX expInt cc cn l.T u = true ∧
        SA_body RAND_MAX expInt deltaT l =
          .ok ⟨neighbour, roundF32 (l.T * deltaT),
            if cn = 0 then true else l.finalStateFound, draws2, l.steps + 1⟩)) := by
  have hTpos : (0 : ℚ) < l.T := by linarith
  refine ⟨?_, ?_, ?_⟩
  · intro hlt hT2
    have hp := libm_worse expInt hexp cc cn l.T hlt hT hT2
    exact ⟨hp, acceptsNotBetter_of_zero RAND_MAX expInt cc cn l.T u hp
        (rand_nonneg _ _ _ hrand),
      SA_body_rejects RAND_MAX expInt hexp deltaT l neighbour draws1 draws2 cn cc u hT hT2
        hmove hcn hcc hlt hrand⟩
  · intro heq
    have hp : expInt (((cc - cn : Int) : ℚ) / l.T) = 1 := by
      rw [heq, sub_self, Int.cast_zero, zero_div]
      exact libm_zero expInt hexp
    refine ⟨hp, fun hu => ⟨(acceptsNotBetter_of_one RAND_MAX expInt cc cn l.T u hp).mpr hu,
      SA_body_accepts RAND_MAX expInt deltaT l neighbour draws1 draws2 cn cc u hmove hcn hcc
        (le_of_eq heq) hrand hp hu⟩⟩
  · intro hlt hhot
    have hp := libm_hot expInt hexp cc cn l.T (le_of_lt hlt) hTpos hhot
    refine ⟨hp, fun hu => ⟨(acceptsNotBetter_of_one RAND_MAX expInt cc cn l.T u hp).mpr hu,
      SA_body_accepts RAND_MAX expInt deltaT l neighbour draws1 draws2 cn cc u hmove hcn hcc
        (le_of_lt hlt) hrand hp hu⟩⟩

/-- Witness for C13: a strictly worse neighbour (cost 8 against 0) is refused at
`T = 100`, and a neighbour of equal cost (8 against 8) is taken on the draw 5. -/
theorem SA_truncated_acceptance_witness :
    (LibmExp sampleExpInt ∧ (100 : ℚ) > 2 ∧
      knownSolution.makeRandomMove (moveDraws ++ [1073741823]) =
        .ok (movedSolution, [1073741823]) ∧
      cost movedSolution = .ok 8 ∧ cost knownSolution = .ok 0 ∧
      rand [1073741823] = .ok (1073741823, []) ∧ (0 : Int) < 8 ∧
      (100 : ℚ) ≤ (2 : ℚ) ^ (22 : ℤ)) ∧
    SA_body 2147483647 sampleExpInt deltaT0999
        ⟨knownSolution, 100, false, moveDraws ++ [1073741823], 0⟩ =
      .ok ⟨knownSolution, roundF32 (100 * deltaT0999), true, [], 1⟩ ∧
    (movedSolution.makeRandomMove (sidewaysDraws ++ [5]) = .ok (sidewaysState, [5]) ∧
      cost sidewaysState = .ok 8 ∧ ((5 : Int) : ℚ) / ((2147483647 : Nat) : ℚ) < 1) ∧
    SA_body 2147483647 sampleExpInt deltaT0999
        ⟨movedSolution, 100, false, sidewaysDraws ++ [5], 0⟩ =
      .ok ⟨sidewaysState, roundF32 (100 * deltaT0999), false, [], 1⟩ :=
  ⟨⟨sampleExpInt_libm, by norm_num, by decide, by decide, by decide, by decide, by decide,
      by norm_num⟩,
    ((SA_truncated_acceptance 2147483647 sampleExpInt deltaT0999
      ⟨knownSolution, 100, false, moveDraws ++ [1073741823], 0⟩ movedSolution [1073741823] []
      8 0 1073741823 sampleExpInt_libm (by norm_num) (by decide) (by decide) (by decide)
      (by decide)).1 (by decide) (by norm_num)).2.2,
    ⟨by decide, by decide, by norm_num⟩,
    (((SA_truncated_acceptance 2147483647 sampleExpInt deltaT0999
      ⟨movedSolution, 100, false, sidewaysDraws ++ [5], 0⟩ sidewaysState [5] []
      8 8 5 sampleExpInt_libm (by norm_num) (by decide) (by decide) (by decide)
      (by decide)).2.1 rfl).2 (by norm_num)).2⟩

/-- C17 refuted on the code: from `knownSolution` (valid, cost 0) at the `float`
parameters `T0 = 2⁷⁰` and decay `2⁻⁶⁹`, on the draws `moveDraws` followed by 0, `SA`
returns `movedSolution`, of cost 8, for every `RAND_MAX` and every `exp` within
`LibmExp`: in the one pass `c / T` is `−2⁻⁶⁷`, `int p` is 1 and the worse neighbour is
taken; the product `2⁷⁰ · 2⁻⁶⁹ = 2` then ends the loop. -/
theorem SA_cost_increases_when_hot :
    (Valid knownSolution ∧ cost knownSolution = .ok 0 ∧ cost movedSolution = .ok 8 ∧
      (0 : ℚ) < (1 / 2) ^ 69 ∧ ((1 / 2 : ℚ)) ^ 69 < 1 ∧
      roundF32 ((2 : ℚ) ^ (70 : ℤ)) = (2 : ℚ) ^ (70 : ℤ) ∧
      roundF32 ((1 / 2 : ℚ) ^ 69) = (1 / 2 : ℚ) ^ 69) ∧
    ∀ (RAND_MAX : Nat) (expInt : ℚ → ℤ), LibmExp expInt → ∀ fuel : Nat,
      SA RAND_MAX expInt (fuel + 1) knownSolution ((2 : ℚ) ^ (70 : ℤ)) ((1 / 2) ^ 69)
          (moveDraws ++ [0]) =
        some (.ok ⟨movedSolution, 2, false, [], 1⟩) := by
  refine ⟨⟨by decide, by decide, by decide, by positivity, by norm_num, by decide!,
    by decide!⟩, ?_⟩
  intro RAND_MAX expInt hexp fuel
  have hp : expInt ((((0 : Int) - 8 : Int) : ℚ) / (2 : ℚ) ^ (70 : ℤ)) = 1 :=
    libm_hot expInt hexp 0 8 ((2 : ℚ) ^ (70 : ℤ)) (by decide) (by positivity) (by norm_num)
  have hu : ((0 : Int) : ℚ) / (RAND_MAX : ℚ) < 1 := by simp
  have hb : SA_body RAND_MAX expInt ((1 / 2) ^ 69)
      ⟨knownSolution, (2 : ℚ) ^ (70 : ℤ), false, moveDraws ++ [0], 0⟩ =
      .ok ⟨movedSolution, 2, false, [], 1⟩ := by
    rw [SA_body_accepts RAND_MAX expInt ((1 / 2) ^ 69)
      ⟨knownSolution, (2 : ℚ) ^ (70 : ℤ), false, moveDraws ++ [0], 0⟩ movedSolution [0] []
      8 0 0 (by decide) (by decide) (by decide) (by decide) (by decide) hp hu]
    have hr : roundF32 ((2 : ℚ) ^ (70 : ℤ) * (1 / 2) ^ 69) = 2 := by decide!
    simp only [hr]
    rfl
  unfold SA
  rw [SA_loop_step _ _ _ _ _ _ (by norm_num) rfl hb]
  exact SA_loop_exit _ _ _ _ _ (by simp)

/-- C17, amended to the `exp` of the library (any `expInt` within `LibmExp`) and the
`float` temperature: for `T0 ≤ 2²²` and every decay at most 1 (in particular every decay
in (0,1)), the state that `SA` returns from a valid initial state costs no more than the
initial state, for every sequence of draws; an initial state of cost 0 yields a result of
cost 0. -/
theorem SA_cost_never_increases (RAND_MAX : Nat) (expInt : ℚ → ℤ) (fuel : Nat) (s : State)
    (T0 decay : ℚ) (draws : List Nat) (l : Loop) (hexp : LibmExp expInt) (hs : Valid s)
    (hT0 : T0 ≤ (2 : ℚ) ^ (22 : ℤ)) (hd : decay ≤ 1)
    (h : SA RAND_MAX expInt fuel s T0 decay draws = some (.ok l)) :
    ∃ c0 c : Int, cost s = .ok c0 ∧ cost l.current = .ok c ∧ c ≤ c0 ∧ (c0 = 0 → c = 0) := by
  obtain ⟨c0, hc0⟩ : ∃ c0, cost s = .ok c0 := ⟨_, cost_eq s hs.2.1⟩
  have hinv := SA_loop_invariant RAND_MAX expInt decay
    (fun l => (∃ c : Int, cost l.current = .ok c ∧ c ≤ c0) ∧ l.T ≤ (2 : ℚ) ^ (22 : ℤ))
    (by
      intro l0 l1 hi hT _ hb
      obtain ⟨⟨c, hc, hle⟩, hT2⟩ := hi
      obtain ⟨cc, c1, hcc, hc1, hle1⟩ := SA_body_cost_le _ _ hexp _ _ _ hT hT2 hb
      rw [hc] at hcc
      cases hcc
      refine ⟨⟨c1, hc1, le_trans hle1 hle⟩, ?_⟩
      rw [(SA_body_spec _ _ _ _ _ hb).1]
      apply roundF32_le_two_zpow _ 22 (by norm_num)
      have hpos : (0 : ℚ) ≤ l0.T := by
        have : (2 : ℚ) < l0.T := hT
        linarith
      calc l0.T * decay ≤ l0.T * 1 := mul_le_mul_of_nonneg_left hd hpos
        _ = l0.T := mul_one _
        _ ≤ (2 : ℚ) ^ (22 : ℤ) := hT2)
    fuel ⟨s, T0, false, draws, 0⟩ l ⟨⟨c0, hc0, le_refl _⟩, hT0⟩ h
  obtain ⟨⟨⟨c, hc, hle⟩, _⟩, _⟩ := hinv
  refine ⟨c0, c, hc0, hc, hle, ?_⟩
  intro hz
  have := cost_nonneg _ _ hc
  omega

/-- Witness for C17: the run from `movedSolution` (cost 8) that moves back to
`knownSolution` returns a state of cost 0. -/
theorem SA_cost_never_increases_witness :
    (LibmExp sampleExpInt ∧ Valid movedSolution ∧ (100 : ℚ) ≤ (2 : ℚ) ^ (22 : ℤ) ∧
      deltaT0999 ≤ 1 ∧
      SA 2147483647 sampleExpInt 1 movedSolution 100 deltaT0999 backDraws =
        some (.ok oneBackExit)) ∧
    ∃ c0 c : Int, cost movedSolution = .ok c0 ∧ cost oneBackExit.current = .ok c ∧ c ≤ c0 ∧
      (c0 = 0 → c = 0) :=
  ⟨⟨sampleExpInt_libm, by decide, by norm_num, by decide!, by decide!⟩,
    SA_cost_never_increases 2147483647 sampleExpInt 1 movedSolution 100 deltaT0999 backDraws
      oneBackExit sampleExpInt_libm (by decide) (by norm_num) (by decide!) (by decide!)⟩

/-- C19: if the initial state has exactly 8 in-range, pairwise distinct queen coordinates
and a grid consistent with them, so has every state that `SA` returns, for every `T0`,
decay, `RAND_MAX`, exponential and sequence of draws. -/
theorem SA_preserves_invariant (RAND_MAX : Nat) (expInt : ℚ → ℤ) (fuel : Nat) (s : State)
    (T0 decay : ℚ) (draws : List Nat) (l : Loop)
    (hlen : s.queenLocations.length = 8) (hin : ∀ p ∈ s.queenLocations, InRange p)
    (hnd : s.queenLocations.Nodup) (hc : Consistent s)
    (h : SA RAND_MAX expInt fuel s T0 decay draws = some (.ok l)) :
    l.current.queenLocations.length = 8 ∧ (∀ p ∈ l.current.queenLocations, InRange p) ∧
      l.current.queenLocations.Nodup ∧ Consistent l.current := by
  have hinv := SA_loop_invariant RAND_MAX expInt decay
    (fun l => Valid l.current ∧ Consistent l.current)
    (fun l0 l1 hi _ _ hb => SA_body_valid _ _ _ _ _ hi.1 hi.2 hb)
    fuel ⟨s, T0, false, draws, 0⟩ l ⟨⟨hlen, hin, hnd⟩, hc⟩ h
  exact ⟨hinv.1.1.1, hinv.1.1.2.1, hinv.1.1.2.2, hinv.1.2⟩

/-- Witness for C19: the two-pass run from `movedSolution` returns a valid, consistent
state. -/
theorem SA_preserves_invariant_witness :
    (movedSolution.queenLocations.length = 8 ∧
      (∀ p ∈ movedSolution.queenLocations, InRange p) ∧ movedSolution.queenLocations.Nodup ∧
      Consistent movedSolution ∧
      SA 2147483647 (fun _ => 0) 2 movedSolution 8 (1 / 2) twoPassDraws =
        some (.ok twoPassExit)) ∧
    (twoPassExit.current.queenLocations.length = 8 ∧
      (∀ p ∈ twoPassExit.current.queenLocations, InRange p) ∧
      twoPassExit.current.queenLocations.Nodup ∧ Consistent twoPassExit.current) :=
  ⟨⟨by decide, by decide, by decide, by decide, by decide!⟩,
    SA_preserves_invariant 2147483647 (fun _ => 0) 2 movedSolution 8 (1 / 2) twoPassDraws
      twoPassExit (by decide) (by decide) (by decide) (by decide) (by decide!)⟩

theorem tallyOf_perm (n : Nat) (idx idx2 : List Int) (h : idx.Perm idx2) :
    tallyOf n idx = tallyOf n idx2 := by
  unfold tallyOf
  apply List.map_congr_left
  intro k _
  rw [h.count_eq]

/-- C12: `State::cost` is invariant under permutation of the queen-coordinate sequence:
for every list `L` of in-range coordinates and every permutation `L2` of `L`, the states
with `queenLocations = L` and `queenLocations = L2` have the same cost, whatever their
grids. -/
theorem cost_perm (board board2 : List (List Int)) (L L2 : List Square)
    (hin : ∀ p ∈ L, InRange p) (hperm : L.Perm L2) :
    cost ⟨board, L⟩ = cost ⟨board2, L2⟩ := by
  have hin2 : ∀ p ∈ L2, InRange p := fun p hp => hin p (hperm.mem_iff.mpr hp)
  rw [cost_eq ⟨board, L⟩ hin, cost_eq ⟨board2, L2⟩ hin2]
  simp only
  rw [tallyOf_perm 8 _ _ (hperm.map Prod.fst), tallyOf_perm 8 _ _ (hperm.map Prod.snd),
    tallyOf_perm 16 _ _ (hperm.map fun p => (p.1 - p.2) + 8),
    tallyOf_perm 16 _ _ (hperm.map fun p => (p.2 - p.1) + 8)]

/-- Witness for C12: `movedSolution` and its queen list reversed both cost 8. -/
theorem cost_perm_witness :
    ((∀ p ∈ movedSolution.queenLocations, InRange p) ∧
      movedSolution.queenLocations.Perm movedSolution.queenLocations.reverse) ∧
    cost ⟨movedSolution.board, movedSolution.queenLocations⟩ =
      cost ⟨emptyBoard, movedSolution.queenLocations.reverse⟩ ∧
    cost ⟨emptyBoard, movedSolution.queenLocations.reverse⟩ = .ok 8 :=
  ⟨⟨by decide, (List.reverse_perm _).symm⟩,
    cost_perm movedSolution.board emptyBoard movedSolution.queenLocations
      movedSolution.queenLocations.reverse (by decide) (List.reverse_perm _).symm,
    by decide⟩

theorem incrAt_ok (v : List Int) (i : Int) (h0 : 0 ≤ i) (hn : i < v.length) :
    ∃ v1, incrAt v i = .ok v1 ∧ v1.length = v.length := by
  unfold incrAt
  rw [if_pos ⟨h0, hn⟩]
  exact ⟨_, rfl, by simp⟩

/-- C14: for every queen coordinate `(r,c)` with `0 ≤ r,c < 8` both diagonal indices
`(r−c)+8` and `(c−r)+8` lie in `[1,15]`, so the increments of `State::cost` succeed on
every tally of 16 elements, and the row and column increments on every tally of 8
elements; on every state with in-range coordinates `cost` returns a value (no access out
of bounds), and the value is not negative. -/
theorem cost_in_bounds :
    (∀ p : Square, InRange p →
      (1 ≤ (p.1 - p.2) + 8 ∧ (p.1 - p.2) + 8 ≤ 15 ∧ 1 ≤ (p.2 - p.1) + 8 ∧ (p.2 - p.1) + 8 ≤ 15) ∧
      (∀ negDiag : List Int, negDiag.length = 16 →
        ∃ v, incrAt negDiag ((p.1 - p.2) + 8) = .ok v ∧ v.length = 16) ∧
      (∀ posDiag : List Int, posDiag.length = 16 →
        ∃ v, incrAt posDiag ((p.2 - p.1) + 8) = .ok v ∧ v.length = 16) ∧
      (∀ rowCount : List Int, rowCount.length = 8 →
        ∃ v, incrAt rowCount p.1 = .ok v ∧ v.length = 8) ∧
      (∀ columnCount : List Int, columnCount.length = 8 →
        ∃ v, incrAt columnCount p.2 = .ok v ∧ v.length = 8)) ∧
    (∀ s : State, (∀ p ∈ s.queenLocations, InRange p) → ∃ n : Int, cost s = .ok n ∧ 0 ≤ n) := by
  constructor
  · intro p hp
    obtain ⟨h1, h2, h3, h4⟩ := hp
    refine ⟨by omega, ?_, ?_, ?_, ?_⟩
    · intro v hv
      obtain ⟨w, hw, hl⟩ := incrAt_ok v ((p.1 - p.2) + 8) (by omega) (by rw [hv]; push_cast; omega)
      exact ⟨w, hw, by rw [hl, hv]⟩
    · intro v hv
      obtain ⟨w, hw, hl⟩ := incrAt_ok v ((p.2 - p.1) + 8) (by omega) (by rw [hv]; push_cast; omega)
      exact ⟨w, hw, by rw [hl, hv]⟩
    · intro v hv
      obtain ⟨w, hw, hl⟩ := incrAt_ok v p.1 h1 (by rw [hv]; push_cast; omega)
      exact ⟨w, hw, by rw [hl, hv]⟩
    · intro v hv
      obtain ⟨w, hw, hl⟩ := incrAt_ok v p.2 h3 (by rw [hv]; push_cast; omega)
      exact ⟨w, hw, by rw [hl, hv]⟩
  · intro s hs
    exact ⟨_, cost_eq s hs, cost_nonneg s _ (cost_eq s hs)⟩

/-- Witness for C14: the corner square (0,7), whose diagonal indices are 1 and 15, and the
cost of `movedSolution`. -/
theorem cost_in_bounds_witness :
    (InRange (0, 7) ∧ incrAt (List.replicate 16 0) (((0 : Int) - 7) + 8) =
        .ok [0, 1, 0, 0, 0, 0, 0, 0, 0, 0, 0, 0, 0, 0, 0, 0] ∧
      incrAt (List.replicate 16 0) (((7 : Int) - 0) + 8) =
        .ok [0, 0, 0, 0, 0, 0, 0, 0, 0, 0, 0, 0, 0, 0, 0, 1]) ∧
    (1 ≤ ((0 : Int) - 7) + 8 ∧ ((0 : Int) - 7) + 8 ≤ 15 ∧
      1 ≤ ((7 : Int) - 0) + 8 ∧ ((7 : Int) - 0) + 8 ≤ 15) ∧
    ((∀ p ∈ movedSolution.queenLocations, InRange p) ∧ cost movedSolution = .ok 8) ∧
    ∃ n : Int, cost movedSolution = .ok n ∧ 0 ≤ n :=
  ⟨by decide, (cost_in_bounds.1 (0, 7) (by decide)).1, by decide,
    cost_in_bounds.2 movedSolution (by decide)⟩

theorem tallyOf_getD (n : Nat) (idx : List Int) (k : Nat) (hk : k < n) :
    (tallyOf n idx).getD k 0 = ((idx.count (k : Int) : Nat) : Int) := by
  simp [tallyOf, List.getD_eq_getElem?_getD, hk]

theorem count_map_eq_countP (L : List Square) (f : Square → Int) (v : Int) :
    (L.map f).count v = L.countP fun p => f p == v := by
  rw [List.count, List.countP_map]
  rfl

theorem sum_reflect15 (g : Int → Int) :
    ((List.range 15).map fun (d : Nat) => g (7 - (d : Int))).sum =
      ((List.range 15).map fun (d : Nat) => g ((d : Int) - 7)).sum := by
  simp [List.range_succ]
  ring

/-- The row part of the cost is the sum over the 8 rows of the specification. -/
theorem rows_familyCost (L : List Square) :
    ((tallyOf 8 (L.map Prod.fst)).map crowded).sum =
      familyCost L ((List.range 8).map fun (r : Nat) (p : Square) => p.1 == (r : Int)) := by
  unfold tallyOf familyCost queensOn
  simp only [List.map_map]
  congr 1
  apply List.map_congr_left
  intro r _
  simp only [Function.comp, count_map_eq_countP]

theorem columns_familyCost (L : List Square) :
    ((tallyOf 8 (L.map Prod.snd)).map crowded).sum =
      familyCost L ((List.range 8).map fun (c : Nat) (p : Square) => p.2 == (c : Int)) := by
  unfold tallyOf familyCost queensOn
  simp only [List.map_map]
  congr 1
  apply List.map_congr_left
  intro r _
  simp only [Function.comp, count_map_eq_countP]

theorem countP_eq_zero_of_inRange (L : List Square) (hin : ∀ p ∈ L, InRange p)
    (f : Square → Int) (hf : ∀ p, InRange p → f p ≠ 0) :
    (L.map f).count 0 = 0 := by
  rw [List.count_eq_zero]
  intro hmem
  obtain ⟨p, hp, hfp⟩ := List.mem_map.mp hmem
  exact hf p (hin p hp) hfp

/-- The `negDiag` part of the cost is the sum over the 15 lines row − col = d. -/
theorem negDiag_familyCost (L : List Square) (hin : ∀ p ∈ L, InRange p) :
    ((tallyOf 16 (L.map fun p => (p.1 - p.2) + 8)).map crowded).sum =
      familyCost L
        ((List.range 15).map fun (d : Nat) (p : Square) => p.1 - p.2 == (d : Int) - 7) := by
  unfold tallyOf familyCost queensOn
  rw [List.range_succ_eq_map]
  simp only [List.map_cons, List.map_map, List.sum_cons, Nat.cast_zero]
  rw [countP_eq_zero_of_inRange L hin _ (by
    intro p hp
    obtain ⟨h1, h2, h3, h4⟩ := hp
    omega)]
  have hc0 : crowded ((0 : Nat) : Int) = 0 := by decide
  rw [hc0, zero_add]
  congr 1
  apply List.map_congr_left
  intro d _
  simp only [Function.comp, count_map_eq_countP]
  congr 3
  funext p
  simp only [Nat.succ_eq_add_one, Nat.cast_add, Nat.cast_one]
  rw [Bool.eq_iff_iff]
  simp only [beq_iff_eq]
  omega

/-- The `posDiag` part of the cost is the same sum over the lines row − col = d. -/
theorem posDiag_familyCost (L : List Square) (hin : ∀ p ∈ L, InRange p) :
    ((tallyOf 16 (L.map fun p => (p.2 - p.1) + 8)).map crowded).sum =
      familyCost L
        ((List.range 15).map fun (d : Nat) (p : Square) => p.1 - p.2 == (d : Int) - 7) := by
  unfold tallyOf familyCost queensOn
  rw [List.range_succ_eq_map]
  simp only [List.map_cons, List.map_map, List.sum_cons, Nat.cast_zero]
  rw [countP_eq_zero_of_inRange L hin _ (by
    intro p hp
    obtain ⟨h1, h2, h3, h4⟩ := hp
    omega)]
  have hc0 : crowded ((0 : Nat) : Int) = 0 := by decide
  rw [hc0, zero_add]
  have hrefl := sum_reflect15 fun v => crowded ((L.countP fun p => p.1 - p.2 == v : Nat) : Int)
  simp only [Function.comp_def] at hrefl ⊢
  rw [← hrefl]
  congr 1
  apply List.map_congr_left
  intro d _
  simp only [count_map_eq_countP]
  congr 3
  funext p
  simp only [Nat.succ_eq_add_one, Nat.cast_add, Nat.cast_one]
  rw [Bool.eq_iff_iff]
  simp only [beq_iff_eq]
  omega

/-- C18: on every state with in-range coordinates the two diagonal tallies of
`State::cost` are mirror images, `posDiag[k] == negDiag[16 − k]` for every `k` in
`[1,15]`; the `posDiag` loop adds the same amount to the cost as the `negDiag` loop; and
the cost is the row part plus the column part plus twice the sum, over the lines
row − col = d holding `k > 1` queens, of `k`. -/
theorem cost_diagonals_mirror (s : State) (hin : ∀ p ∈ s.queenLocations, InRange p) :
    ∃ negDiag posDiag : List Int,
      countDiagonals s.queenLocations (List.replicate 16 0) (List.replicate 16 0) =
        .ok (negDiag, posDiag) ∧
      (∀ k : Nat, 1 ≤ k → k ≤ 15 → posDiag.getD k 0 = negDiag.getD (16 - k) 0) ∧
      (∀ c : Int, addCrowded c posDiag - c = addCrowded c negDiag - c) ∧
      cost s = .ok
        (familyCost s.queenLocations
            ((List.range 8).map fun (r : Nat) (p : Square) => p.1 == (r : Int)) +
          familyCost s.queenLocations
            ((List.range 8).map fun (c : Nat) (p : Square) => p.2 == (c : Int)) +
          2 * familyCost s.queenLocations
            ((List.range 15).map fun (d : Nat) (p : Square) => p.1 - p.2 == (d : Int) - 7)) := by
  refine ⟨tallyOf 16 (s.queenLocations.map fun p => (p.1 - p.2) + 8),
    tallyOf 16 (s.queenLocations.map fun p => (p.2 - p.1) + 8), ?_, ?_, ?_, ?_⟩
  · rw [← tallyOf_nil 16, countDiagonals_tallyOf _ hin]
    simp only [List.append_nil, tallyOf_reverse]
  · intro k h1 h15
    rw [tallyOf_getD 16 _ k (by omega), tallyOf_getD 16 _ (16 - k) (by omega),
      count_map_eq_countP, count_map_eq_countP]
    congr 2
    funext p
    rw [Bool.eq_iff_iff]
    simp only [beq_iff_eq]
    have : ((16 - k : Nat) : Int) = 16 - (k : Int) := by omega
    rw [this]
    omega
  · intro c
    rw [addCrowded_eq, addCrowded_eq, posDiag_familyCost _ hin, negDiag_familyCost _ hin]
  · rw [cost_eq s hin, rows_familyCost, columns_familyCost, negDiag_familyCost _ hin,
      posDiag_familyCost _ hin]
    congr 1
    ring

/-- Witness for C18: on `movedSolution` the line row − col = 0 holds the two queens (0,0)
and (3,3), and the cost 8 is 2 (row 3) + 2 (column 3) + 2 × 2. -/
theorem cost_diagonals_mirror_witness :
    ((∀ p ∈ movedSolution.queenLocations, InRange p) ∧
      familyCost movedSolution.queenLocations
        ((List.range 8).map fun (r : Nat) (p : Square) => p.1 == (r : Int)) = 2 ∧
      familyCost movedSolution.queenLocations
        ((List.range 8).map fun (c : Nat) (p : Square) => p.2 == (c : Int)) = 2 ∧
      familyCost movedSolution.queenLocations
        ((List.range 15).map fun (d : Nat) (p : Square) => p.1 - p.2 == (d : Int) - 7) = 2 ∧
      cost movedSolution = .ok 8) ∧
    ∃ negDiag posDiag : List Int,
      countDiagonals movedSolution.queenLocations (List.replicate 16 0) (List.replicate 16 0) =
        .ok (negDiag, posDiag) ∧
      (∀ k : Nat, 1 ≤ k → k ≤ 15 → posDiag.getD k 0 = negDiag.getD (16 - k) 0) ∧
      (∀ c : Int, addCrowded c posDiag - c = addCrowded c negDiag - c) ∧
      cost movedSolution = .ok
        (familyCost movedSolution.queenLocations
            ((List.range 8).map fun (r : Nat) (p : Square) => p.1 == (r : Int)) +
          familyCost movedSolution.queenLocations
            ((List.range 8).map fun (c : Nat) (p : Square) => p.2 == (c : Int)) +
          2 * familyCost movedSolution.queenLocations
            ((List.range 15).map fun (d : Nat) (p : Square) => p.1 - p.2 == (d : Int) - 7)) :=
  ⟨by decide, cost_diagonals_mirror movedSolution (by decide)⟩

theorem mem_allSquares (sq : Square) : sq ∈ allSquares ↔ InRange sq := by
  unfold allSquares InRange
  simp only [List.mem_flatMap, List.mem_map, List.mem_range]
  constructor
  · rintro ⟨r, hr, c, hc, rfl⟩
    simp only
    omega
  · rintro ⟨h1, h2, h3, h4⟩
    refine ⟨sq.1.toNat, by omega, sq.2.toNat, by omega, ?_⟩
    apply Prod.ext
    · simp only; omega
    · simp only; omega

theorem allSquares_nodup : allSquares.Nodup := by decide

theorem allSquares_length : allSquares.length = 64 := by decide

theorem mem_freeSquares (used : List Square) (sq : Square) :
    sq ∈ freeSquares used ↔ InRange sq ∧ sq ∉ used := by
  unfold freeSquares
  simp [List.mem_filter, mem_allSquares]

theorem freeSquares_nodup (used : List Square) : (freeSquares used).Nodup :=
  allSquares_nodup.filter _

theorem freeSquares_length (used : List Square) (hnd : used.Nodup)
    (hin : ∀ p ∈ used, InRange p) : (freeSquares used).length + used.length = 64 := by
  have h := List.length_eq_length_filter_add (l := allSquares) fun sq => decide (sq ∉ used)
  rw [allSquares_length] at h
  have hperm : (allSquares.filter fun sq => !decide (sq ∉ used)).Perm used := by
    rw [List.perm_ext_iff_of_nodup (allSquares_nodup.filter _) hnd]
    intro a
    simp only [List.mem_filter, mem_allSquares, Bool.not_eq_true', decide_eq_false_iff_not,
      not_not]
    exact ⟨fun h => h.2, fun h => ⟨hin a h, h⟩⟩
  rw [hperm.length_eq] at h
  unfold freeSquares
  omega

theorem exists_free (used : List Square) (h : used.length ≤ 8) :
    ∃ a b : Nat, a < 8 ∧ b < 8 ∧ ((a : Int), (b : Int)) ∉ used := by
  by_contra hcon
  have hsub : allSquares ⊆ used := by
    intro sq hsq
    by_contra hnot
    obtain ⟨h1, h2, h3, h4⟩ := (mem_allSquares sq).mp hsq
    apply hcon
    refine ⟨sq.1.toNat, sq.2.toNat, by omega, by omega, ?_⟩
    have e : ((sq.1.toNat : Int), (sq.2.toNat : Int)) = sq := by
      apply Prod.ext
      · simp only; omega
      · simp only; omega
    rw [e]
    exact hnot
  have := (List.subperm_of_subset allSquares_nodup hsub).length_le
  rw [allSquares_length] at this
  omega

theorem whileUsed_exit (used : List Square) (a b : Nat) (ha : a < 8) (hb : b < 8)
    (hfree : ((a : Int), (b : Int)) ∉ used) (i j : Int) (rest : List Nat) :
    whileUsed used i j (a :: b :: rest) =
      if (i, j) ∈ used then .ok (((a : Int), (b : Int)), rest)
      else .ok ((i, j), a :: b :: rest) := by
  have hfree0 : ¬ List.count ((a : Int), (b : Int)) used ≠ 0 := by
    rw [not_not, List.count_eq_zero]
    exact hfree
  have ea : (a : Int) % 8 = a := by omega
  have eb : (b : Int) % 8 = b := by omega
  by_cases hmem : (i, j) ∈ used
  · have hc : List.count (i, j) used ≠ 0 := by
      have := List.count_pos_iff.mpr hmem
      omega
    rw [if_pos hmem]
    unfold whileUsed
    rw [if_pos hc]
    simp only [ea, eb]
    unfold whileUsed
    rw [if_neg hfree0]
  · have hc : ¬ List.count (i, j) used ≠ 0 := by
      rw [not_not, List.count_eq_zero]
      exact hmem
    rw [if_neg hmem]
    unfold whileUsed
    rw [if_neg hc]

/-- C16: the rejection loops can always exit. For every list of at most 8 used squares
there is a square `(a,b)` of the board that is not in the list, and the draws `a`, `b` end
the loop `while(count(used, (i,j)))` from any `(i,j)`; with 8 distinct in-range queens the
squares that end the loop are exactly the 56 squares of `freeSquares`. -/
theorem rejection_loop_can_exit :
    (∀ used : List Square, used.length ≤ 8 →
      ∃ a b : Nat, a < 8 ∧ b < 8 ∧ ((a : Int), (b : Int)) ∉ used ∧
        ∀ (i j : Int) (rest : List Nat),
          whileUsed used i j (a :: b :: rest) =
            if (i, j) ∈ used then .ok (((a : Int), (b : Int)), rest)
            else .ok ((i, j), a :: b :: rest)) ∧
    (∀ used : List Square, used.length = 8 → used.Nodup → (∀ p ∈ used, InRange p) →
      (freeSquares used).length = 56 ∧ (freeSquares used).Nodup ∧
      ∀ sq : Square, sq ∈ freeSquares used ↔ InRange sq ∧ sq ∉ used) := by
  constructor
  · intro used hlen
    obtain ⟨a, b, ha, hb, hfree⟩ := exists_free used hlen
    exact ⟨a, b, ha, hb, hfree, whileUsed_exit used a b ha hb hfree⟩
  · intro used hlen hnd hin
    have := freeSquares_length used hnd hin
    exact ⟨by omega, freeSquares_nodup used, mem_freeSquares used⟩

/-- Witness for C16: the queens of `knownSolution` as used squares. -/
theorem rejection_loop_can_exit_witness :
    (knownSolution.queenLocations.length ≤ 8 ∧ knownSolution.queenLocations.length = 8 ∧
      knownSolution.queenLocations.Nodup ∧ (∀ p ∈ knownSolution.queenLocations, InRange p)) ∧
    (∃ a b : Nat, a < 8 ∧ b < 8 ∧ ((a : Int), (b : Int)) ∉ knownSolution.queenLocations ∧
        ∀ (i j : Int) (rest : List Nat),
          whileUsed knownSolution.queenLocations i j (a :: b :: rest) =
            if (i, j) ∈ knownSolution.queenLocations then .ok (((a : Int), (b : Int)), rest)
            else .ok ((i, j), a :: b :: rest)) ∧
    ((freeSquares knownSolution.queenLocations).length = 56 ∧
      (freeSquares knownSolution.queenLocations).Nodup ∧
      ∀ sq : Square, sq ∈ freeSquares knownSolution.queenLocations ↔
        InRange sq ∧ sq ∉ knownSolution.queenLocations) :=
  ⟨by decide, rejection_loop_can_exit.1 knownSolution.queenLocations (by decide),
    rejection_loop_can_exit.2 knownSolution.queenLocations (by decide) (by decide)
      (by decide)⟩

/-- The call of `makeRandomMove` on the draws that pick the free square `sq` at once and
then the queen index `r`. -/
theorem makeRandomMove_canonical (s : State) (r : Nat) (sq : Square) (hr8 : r < 8)
    (hr : r < s.queenLocations.length) (hsq : sq ∈ freeSquares s.queenLocations) :
    s.makeRandomMove [sq.1.toNat, sq.2.toNat, r] =
      match setCell s.board (s.queenLocations.getD r (0, 0)).1
          (s.queenLocations.getD r (0, 0)).2 0 with
      | .error e => .error e
      | .ok board1 =>
        match setCell board1 sq.1 sq.2 1 with
        | .error e => .error e
        | .ok board2 => .ok (⟨board2, s.queenLocations.set r sq⟩, []) := by
  obtain ⟨⟨h1, h2, h3, h4⟩, hfree⟩ := (mem_freeSquares _ _).mp hsq
  have e1 : ((sq.1.toNat : Nat) : Int) % 8 = sq.1 := by omega
  have e2 : ((sq.2.toNat : Nat) : Int) % 8 = sq.2 := by omega
  have e3 : ((r : Nat) : Int) % 8 = r := by omega
  have hc : ¬ List.count (sq.1, sq.2) s.queenLocations ≠ 0 := by
    rw [not_not, List.count_eq_zero]
    exact hfree
  have hq : queenAt s.queenLocations (r : Int) = .ok (s.queenLocations.getD r (0, 0)) := by
    unfold queenAt
    rw [if_pos ⟨by omega, by omega⟩]
    simp
  unfold State.makeRandomMove
  simp only [rand, e1, e2, e3]
  unfold whileUsed
  rw [if_neg hc]
  simp only [rand, e3, hq, Int.toNat_ofNat]

theorem makeRandomMove_eq_canonical (s t : State) (draws rest : List Nat)
    (h : s.makeRandomMove draws = .ok (t, rest)) :
    ∃ (r : Nat) (sq : Square), r < 8 ∧ r < s.queenLocations.length ∧
      sq ∈ freeSquares s.queenLocations ∧
      s.makeRandomMove [sq.1.toNat, sq.2.toNat, r] = .ok (t, []) := by
  obtain ⟨sq, r, board1, hin, hnot, hr8, hr, hs1, hs2, hq⟩ := makeRandomMove_inv s t draws rest h
  have hsq : sq ∈ freeSquares s.queenLocations := (mem_freeSquares _ _).mpr ⟨hin, hnot⟩
  refine ⟨r, sq, hr8, hr, hsq, ?_⟩
  rw [makeRandomMove_canonical s r sq hr8 hr hsq, hs1]
  simp only [hs2]
  rw [← hq]

theorem makeRandomMove_canonical_ok (s : State) (hs : Valid s) (hg : Grid8 s.board) (r : Nat)
    (sq : Square) (hr8 : r < 8) (hsq : sq ∈ freeSquares s.queenLocations) :
    ∃ t, s.makeRandomMove [sq.1.toNat, sq.2.toNat, r] = .ok (t, []) ∧
      t.queenLocations = s.queenLocations.set r sq := by
  have hr : r < s.queenLocations.length := by rw [hs.1]; exact hr8
  have hold : InRange (s.queenLocations.getD r (0, 0)) :=
    hs.2.1 _ (getD_mem_of_lt _ _ _ hr)
  obtain ⟨b1, hb1⟩ := setCell_ok s.board (s.queenLocations.getD r (0, 0)).1
    (s.queenLocations.getD r (0, 0)).2 0 hg hold
  obtain ⟨_, hg1, _⟩ := setCell_spec _ _ _ _ _ hg hb1
  obtain ⟨b2, hb2⟩ := setCell_ok b1 sq.1 sq.2 1 hg1 ((mem_freeSquares _ _).mp hsq).1
  refine ⟨⟨b2, s.queenLocations.set r sq⟩, ?_, rfl⟩
  rw [makeRandomMove_canonical s r sq hr8 hr hsq, hb1]
  simp only [hb2]

theorem mem_neighbours (s t : State) :
    t ∈ neighbours s ↔ ∃ (r : Nat) (sq : Square), r < 8 ∧ sq ∈ freeSquares s.queenLocations ∧
      ∃ rest, s.makeRandomMove [sq.1.toNat, sq.2.toNat, r] = .ok (t, rest) := by
  unfold neighbours
  simp only [List.mem_flatMap, List.mem_range, List.mem_filterMap]
  constructor
  · rintro ⟨r, hr, sq, hsq, hm⟩
    refine ⟨r, sq, hr, hsq, ?_⟩
    split at hm
    · rename_i t2 rest heq
      cases hm
      exact ⟨rest, heq⟩
    · cases hm
  · rintro ⟨r, sq, hr, hsq, rest, hm⟩
    refine ⟨r, hr, sq, hsq, ?_⟩
    rw [hm]

theorem set_inj {α : Type} (L : List α) (r r2 : Nat) (x x2 : α) (hr : r < L.length)
    (hr2 : r2 < L.length) (hx : x ∉ L) (h : L.set r x = L.set r2 x2) : r = r2 ∧ x = x2 := by
  have hrr : r = r2 := by
    by_contra hne
    have h1 : (L.set r x)[r]? = some x := List.getElem?_set_self hr
    rw [h, List.getElem?_set_ne (fun e => hne e.symm)] at h1
    exact hx (List.getElem?_mem h1)
  subst hrr
  refine ⟨rfl, ?_⟩
  have h1 : (L.set r x)[r]? = some x := List.getElem?_set_self hr
  rw [h, List.getElem?_set_self hr2] at h1
  exact (Option.some.inj h1).symm

theorem flatMap_congr_mem {α β : Type} (l : List α) (F G : α → List β)
    (h : ∀ x ∈ l, F x = G x) : l.flatMap F = l.flatMap G := by
  induction l with
  | nil => rfl
  | cons a tl ih =>
    simp only [List.flatMap_cons]
    rw [h a (List.mem_cons_self _ _), ih (fun x hx => h x (List.mem_cons_of_mem _ hx))]

theorem length_flatMap_const {α β : Type} (l : List α) (F : α → List β) (m : Nat)
    (h : ∀ x ∈ l, (F x).length = m) : (l.flatMap F).length = l.length * m := by
  induction l with
  | nil => simp
  | cons a tl ih =>
    simp only [List.flatMap_cons, List.length_append, List.length_cons]
    rw [h a (List.mem_cons_self _ _), ih (fun x hx => h x (List.mem_cons_of_mem _ hx))]
    ring

theorem map_filterMap_eq {α β γ : Type} (l : List α) (f : α → Option β) (q : β → γ)
    (g : α → γ) (h : ∀ x ∈ l, ∃ t, f x = some t ∧ q t = g x) :
    (l.filterMap f).map q = l.map g := by
  induction l with
  | nil => rfl
  | cons a tl ih =>
    obtain ⟨t, ht, hq⟩ := h a (List.mem_cons_self _ _)
    rw [List.filterMap_cons_some ht, List.map_cons, List.map_cons, hq,
      ih (fun x hx => h x (List.mem_cons_of_mem _ hx))]

/-- The queen lists of the neighbours: queen `r` replaced by a free square, for every `r`
and every free square. -/
theorem neighbours_queenLocations (s : State) (hs : Valid s) (hg : Grid8 s.board) :
    (neighbours s).map (fun t => t.queenLocations) =
      (List.range 8).flatMap fun (r : Nat) =>
        (freeSquares s.queenLocations).map fun sq => s.queenLocations.set r sq := by
  unfold neighbours
  rw [List.map_flatMap]
  apply flatMap_congr_mem
  intro r hr
  apply map_filterMap_eq
  intro sq hsq
  obtain ⟨t, ht, hq⟩ := makeRandomMove_canonical_ok s hs hg r sq (List.mem_range.mp hr) hsq
  exact ⟨t, by rw [ht], hq⟩

theorem neighbours_length (s : State) (hs : Valid s) (hg : Grid8 s.board) :
    (neighbours s).length = 448 := by
  have h := congrArg List.length (neighbours_queenLocations s hs hg)
  rw [List.length_map, length_flatMap_const _ _ 56 (by
    intro r _
    rw [List.length_map]
    have := freeSquares_length s.queenLocations hs.2.2 hs.2.1
    have := hs.1
    omega)] at h
  simpa using h

theorem neighbours_nodup (s : State) (hs : Valid s) (hg : Grid8 s.board) :
    (neighbours s).Nodup := by
  apply List.Nodup.of_map fun t => t.queenLocations
  rw [neighbours_queenLocations s hs hg, List.nodup_flatMap]
  constructor
  · intro r hr
    apply List.Nodup.map_on _ (freeSquares_nodup _)
    intro x hx y _ hxy
    exact (set_inj s.queenLocations r r x y (by rw [hs.1]; exact List.mem_range.mp hr)
      (by rw [hs.1]; exact List.mem_range.mp hr) ((mem_freeSquares _ _).mp hx).2 hxy).2
  · apply List.Pairwise.imp_of_mem _ (List.nodup_range 8)
    intro r r2 hr hr2 hne
    simp only [Function.onFun]
    intro L hL hL2
    obtain ⟨x, hx, rfl⟩ := List.mem_map.mp hL
    obtain ⟨y, _, hy⟩ := List.mem_map.mp hL2
    exact hne (set_inj s.queenLocations r r2 x y (by rw [hs.1]; exact List.mem_range.mp hr)
      (by rw [hs.1]; exact List.mem_range.mp hr2) ((mem_freeSquares _ _).mp hx).2 hy.symm).1

/-- C15: for every valid state `s` (8 pairwise distinct in-range queens, on its 8×8 grid)
the states that `makeRandomMove` can return from `s` are exactly the elements of
`neighbours s`, one for every queen index `r` in `[0,8)` and every target square
unoccupied in `s`; they are pairwise different and there are 8 × (64 − 8) = 448 of them:
different (index, target) choices give different result states. -/
theorem makeRandomMove_neighbourhood (s : State) (hs : Valid s) (hg : Grid8 s.board) :
    (∀ t, (∃ draws rest, s.makeRandomMove draws = .ok (t, rest)) ↔ t ∈ neighbours s) ∧
    (neighbours s).Nodup ∧ (neighbours s).length = 448 ∧
    {t | ∃ draws rest, s.makeRandomMove draws = .ok (t, rest)}.ncard = 8 * (64 - 8) ∧
    (∀ (r : Nat) (sq : Square), r < 8 → sq ∈ freeSquares s.queenLocations →
      ∃ t, s.makeRandomMove [sq.1.toNat, sq.2.toNat, r] = .ok (t, []) ∧
        t.queenLocations = s.queenLocations.set r sq) ∧
    (∀ (r r2 : Nat) (sq sq2 : Square) (t : State), r < 8 → r2 < 8 →
      sq ∈ freeSquares s.queenLocations → sq2 ∈ freeSquares s.queenLocations →
      s.makeRandomMove [sq.1.toNat, sq.2.toNat, r] = .ok (t, []) →
      s.makeRandomMove [sq2.1.toNat, sq2.2.toNat, r2] = .ok (t, []) →
      r = r2 ∧ sq = sq2) := by
  have hiff : ∀ t, (∃ draws rest, s.makeRandomMove draws = .ok (t, rest)) ↔ t ∈ neighbours s := by
    intro t
    rw [mem_neighbours]
    constructor
    · rintro ⟨draws, rest, h⟩
      obtain ⟨r, sq, hr8, _, hsq, hrun⟩ := makeRandomMove_eq_canonical s t draws rest h
      exact ⟨r, sq, hr8, hsq, [], hrun⟩
    · rintro ⟨r, sq, _, _, rest, hrun⟩
      exact ⟨_, rest, hrun⟩
  refine ⟨hiff, neighbours_nodup s hs hg, neighbours_length s hs hg, ?_,
    fun r sq hr hsq => makeRandomMove_canonical_ok s hs hg r sq hr hsq, ?_⟩
  · have hset : {t | ∃ draws rest, s.makeRandomMove draws = .ok (t, rest)} =
        ((neighbours s).toFinset : Set State) := by
      ext t
      simp only [Set.mem_setOf_eq, List.coe_toFinset]
      exact hiff t
    rw [hset, Set.ncard_coe_Finset, List.toFinset_card_of_nodup (neighbours_nodup s hs hg),
      neighbours_length s hs hg]
  · intro r r2 sq sq2 t hr hr2 hsq hsq2 h1 h2
    obtain ⟨t1, ht1, hq1⟩ := makeRandomMove_canonical_ok s hs hg r sq hr hsq
    obtain ⟨t2, ht2, hq2⟩ := makeRandomMove_canonical_ok s hs hg r2 sq2 hr2 hsq2
    rw [h1] at ht1
    rw [h2] at ht2
    cases ht1
    cases ht2
    exact set_inj s.queenLocations r r2 sq sq2 (by rw [hs.1]; exact hr) (by rw [hs.1]; exact hr2)
      ((mem_freeSquares _ _).mp hsq).2 (hq1.symm.trans hq2)

/-- Witness for C15: the 448 neighbours of `knownSolution`, `movedSolution` among them. -/
theorem makeRandomMove_neighbourhood_witness :
    (Valid knownSolution ∧ Grid8 knownSolution.board ∧
      movedSolution ∈ neighbours knownSolution) ∧
    (neighbours knownSolution).Nodup ∧ (neighbours knownSolution).length = 448 ∧
    {t | ∃ draws rest, knownSolution.makeRandomMove draws = .ok (t, rest)}.ncard =
      8 * (64 - 8) :=
  ⟨⟨by decide, by decide,
      ((makeRandomMove_neighbourhood knownSolution (by decide) (by decide)).1 movedSolution).mp
        ⟨moveDraws, [], by decide⟩⟩,
    (makeRandomMove_neighbourhood knownSolution (by decide) (by decide)).2.1,
    (makeRandomMove_neighbourhood knownSolution (by decide) (by decide)).2.2.1,
    (makeRandomMove_neighbourhood knownSolution (by decide) (by decide)).2.2.2.1⟩

end EightQueens
